import Mathlib

/-!
Verification development for the schematic layout and routing core of the
SCHTECZAI repository (src/components/SchematicView.tsx).

The definitions below are a shallow embedding of the source:
grid mapping, the A star pathfinder with its turn penalty and fallback,
component placement, pin resolution, the obstacle field, and the net router.
Pixel coordinates that can be fractional (top and bottom pins divide the
component width) are modelled as rationals; grid cells are integer points.
The JavaScript number rounding Math.round(v) agrees with the Mathlib
function round on rationals (round half toward positive infinity), and
Math.ceil agrees with Int.ceil.
-/

namespace Schematic

attribute [local semireducible] Rat.mul Rat.add Rat.inv

/-- A grid cell or pixel point with integer coordinates. -/
structure Point where
  x : Int
  y : Int
deriving DecidableEq

/-- GRID_SIZE constant: the grid quantum Q. -/
def GRID_SIZE : Int := 20

/-- HEADER_HEIGHT constant. -/
def HEADER_HEIGHT : Int := 40

/-- PIN_SPACING constant. -/
def PIN_SPACING : Int := 20

/-- JavaScript Math.round: round half toward positive infinity, that is the
floor of v + 1/2. Written with integer division on numerator and denominator
so that it evaluates by kernel reduction; the theorem jsRound_eq_round below
identifies it with the Mathlib rounding function. -/
def jsRound (v : ℚ) : Int := (2 * v.num + v.den) / (2 * (v.den : Int))

/-- JavaScript Math.ceil of a quotient of integers (positive divisor),
as an integer ceiling division; the theorem ceilDiv_eq_ceil below identifies
it with the Mathlib ceiling. -/
def ceilDiv (a b : Int) : Int := -(-a / b)

/-- toGrid from the source: Math.round(val / GRID_SIZE). -/
def toGrid (v : ℚ) : Int := jsRound (v / 20)

/-- toPx from the source: val * GRID_SIZE. -/
def toPx (v : Int) : Int := v * GRID_SIZE

/-- getManhattanDistance from the source. -/
def getManhattanDistance (a b : Point) : Int := |a.x - b.x| + |a.y - b.y|

/-- The search window rectangle passed to the pathfinder. -/
structure GridBounds where
  minX : Int
  maxX : Int
  minY : Int
  maxY : Int
deriving DecidableEq

/-- One frontier element of the A star queue: current position, the path taken
to it, and the direction of the last step (none for the start entry). -/
structure QEntry where
  pos : Point
  path : List Point
  dir : Option Point
deriving DecidableEq

/-- The priority queue of the source is a list kept sorted by ascending
priority: enqueue pushes and re-sorts with a stable sort, which on an already
sorted list is exactly insertion after every element of smaller or equal
priority. -/
def sortedInsert (e : QEntry) (p : Int) : List (QEntry × Int) → List (QEntry × Int)
  | [] => [(e, p)]
  | (f, q) :: rest =>
    if q ≤ p then (f, q) :: sortedInsert e p rest
    else (e, p) :: (f, q) :: rest

/-- Lookup in the visited map (a JavaScript Map keyed by the cell). -/
def vget : List (Point × Int) → Point → Option Int
  | [], _ => none
  | (c, v) :: rest, k => if c = k then some v else vget rest k

/-- Update of the visited map: Map.set replaces the entry of an existing key. -/
def vset : List (Point × Int) → Point → Int → List (Point × Int)
  | [], k, v => [(k, v)]
  | (c, w) :: rest, k, v => if c = k then (k, v) :: rest else (c, w) :: vset rest k v

/-- The four orthogonal step directions, in the order of the source. -/
def dirs : List Point := [⟨0, 1⟩, ⟨0, -1⟩, ⟨1, 0⟩, ⟨-1, 0⟩]

/-- Frontier plus visited map: the mutable state of the search loop. -/
structure AState where
  queue : List (QEntry × Int)
  visited : List (Point × Int)

/-- Is a cell inside the search window (the source skips a neighbor when
next.x < minX, next.x > maxX, next.y < minY or next.y > maxY). -/
def inBounds (gb : GridBounds) (p : Point) : Bool :=
  decide (gb.minX ≤ p.x) && decide (p.x ≤ gb.maxX) &&
  decide (gb.minY ≤ p.y) && decide (p.y ≤ gb.maxY)

/-- The neighbor cell one step from pos in direction d. -/
def nextCell (pos d : Point) : Point := ⟨pos.x + d.x, pos.y + d.y⟩

/-- The turn penalty: 50 when the step direction differs from the previous
one, 0 for a straight continuation or for the start entry. -/
def turnOf (dir : Option Point) (d : Point) : Int :=
  match dir with
  | some pd => if pd.x ≠ d.x ∨ pd.y ≠ d.y then 50 else 0
  | none => 0

/-- Processing of one neighbor direction d of the dequeued entry cur:
bounds check, obstacle check (the end cell is exempt), cost with the
turn penalty of 50 over the base move cost of 10, and the relaxation
guard newCost < visited cost before enqueueing. -/
def relaxDir (endP : Point) (obstacles : Point → Bool) (gb : GridBounds)
    (cur : QEntry) (costSoFar : Int) (st : AState) (d : Point) : AState :=
  let next : Point := nextCell cur.pos d
  if ¬ (inBounds gb next = true) then st
  else if obstacles next = true ∧ ¬ (next = endP) then st
  else
    let newCost := costSoFar + 10 + turnOf cur.dir d
    let fresh : Bool :=
      match vget st.visited next with
      | some old => decide (newCost < old)
      | none => true
    if fresh then
      { queue := sortedInsert ⟨next, cur.path ++ [next], some d⟩
          (newCost + getManhattanDistance next endP * 10) st.queue,
        visited := vset st.visited next newCost }
    else st

/-- Neighbor exploration of one dequeued entry: fold the four directions. -/
def expand (endP : Point) (obstacles : Point → Bool) (gb : GridBounds)
    (cur : QEntry) (costSoFar : Int) (st : AState) : AState :=
  dirs.foldl (relaxDir endP obstacles gb cur costSoFar) st

/-- The collinearity test of the path post-processing: the three points share
an x coordinate or share a y coordinate. -/
def collinearB (a b c : Point) : Bool :=
  (decide (a.x = b.x) && decide (b.x = c.x)) || (decide (a.y = b.y) && decide (b.y = c.y))

/-- The interior points kept by the post-processing pass: a point is dropped
when it is collinear with its two original neighbors. -/
def keepMids : List Point → List Point
  | a :: b :: c :: rest => (if collinearB a b c then [] else [b]) ++ keepMids (b :: c :: rest)
  | _ => []

/-- Path post-processing of the success branch: first point, the kept interior
points, then the last point, exactly as the source builds the optimized array. -/
def optimize : List Point → List Point
  | [] => []
  | p :: ps => p :: (keepMids (p :: ps) ++ [List.getLastD ps p])

/-- The main search loop, fueled by the remaining iteration budget.
Returns some optimized path when an entry at the end cell is dequeued, and
none when the frontier empties or the iteration cap stops the loop. -/
def aStarLoop (endP : Point) (obstacles : Point → Bool) (gb : GridBounds) :
    Nat → AState → Option (List Point)
  | 0, _ => none
  | fuel + 1, st =>
    match st.queue with
    | [] => none
    | (cur, _) :: rest =>
      if cur.pos = endP then some (optimize cur.path)
      else
        aStarLoop endP obstacles gb fuel
          (expand endP obstacles gb cur ((vget st.visited cur.pos).getD 0) ⟨rest, st.visited⟩)

/-- MAX_ITER constant of the source. -/
def MAX_ITER : Nat := 5000

/-- The initial state: the start entry at priority 0, visited cost 0. -/
def initState (start : Point) : AState :=
  ⟨[(⟨start, [start], none⟩, 0)], [(start, 0)]⟩

/-- The search as run by findPathAStar: full iteration budget from the
initial state. -/
def aStarRun (start endP : Point) (obstacles : Point → Bool) (gb : GridBounds) :
    Option (List Point) :=
  aStarLoop endP obstacles gb MAX_ITER (initState start)

/-- The naive Manhattan fallback path of the source. -/
def fallbackPath (start endP : Point) : List Point :=
  [start, ⟨endP.x, start.y⟩, endP]

/-- findPathAStar from the source: the search result, or the naive Manhattan
L path when the search was inconclusive. -/
def findPathAStar (start endP : Point) (obstacles : Point → Bool) (gb : GridBounds) :
    List Point :=
  match aStarRun start endP obstacles gb with
  | some p => p
  | none => fallbackPath start endP

/-! ## Data model -/

/-- Which edge of a component a pin sits on. The source stores the side as a
string; only these four values are ever produced by the router. -/
inductive Side
  | left
  | right
  | top
  | bottom
deriving DecidableEq

/-- A pin declaration. The source allows the pin number to be a string or a
number and always compares it after coercion to string, so the number is
modelled as the coerced string. -/
structure PinDefinition where
  pinNumber : String
  name : String
  side : Option Side
deriving DecidableEq

/-- A component: identity and its ordered pin list. -/
structure ComponentItem where
  id : String
  name : String
  pins : List PinDefinition
deriving DecidableEq

/-- A net connection; the pin identifier is kept as the coerced string. -/
structure NetConnection where
  componentId : String
  pin : String
deriving DecidableEq

/-- The optional declared class of a net. -/
inductive NetType
  | signal
  | power
  | ground
deriving DecidableEq

/-- A net: identity, display name, connection list and optional class. -/
structure Net where
  id : String
  name : String
  connections : List NetConnection
  type : Option NetType
deriving DecidableEq

/-- A placement entry: x, y, w, h in pixel space. -/
structure Pos where
  x : Int
  y : Int
  w : Int
  h : Int
deriving DecidableEq

/-- A routed polyline with its color and identifying metadata. -/
structure Route where
  path : List Point
  color : String
  id : String
  netName : String
deriving DecidableEq

/-- The input consumed by the view: component list plus net list. -/
structure SchematicData where
  components : List ComponentItem
  nets : List Net
deriving DecidableEq

/-- Lookup in the positions record (a JavaScript object keyed by component id). -/
def posGet : List (String × Pos) → String → Option Pos
  | [], _ => none
  | (k, p) :: rest, key => if k = key then some p else posGet rest key

/-- Setting one entry of the positions record, as the drag handler does. -/
def posSet : List (String × Pos) → String → Pos → List (String × Pos)
  | [], k, v => [(k, v)]
  | (c, w) :: rest, k, v => if c = k then (k, v) :: rest else (c, w) :: posSet rest k v

/-! ## Component placer -/

/-- Pins assigned to the left side: declared left, or no declared side. -/
def leftPinsOf (pins : List PinDefinition) : List PinDefinition :=
  pins.filter fun p => decide (p.side = some Side.left ∨ p.side = none)

/-- Pins assigned to the right side. -/
def rightPinsOf (pins : List PinDefinition) : List PinDefinition :=
  pins.filter fun p => decide (p.side = some Side.right)

/-- Pins assigned to the top side. -/
def topPinsOf (pins : List PinDefinition) : List PinDefinition :=
  pins.filter fun p => decide (p.side = some Side.top)

/-- Pins assigned to the bottom side. -/
def bottomPinsOf (pins : List PinDefinition) : List PinDefinition :=
  pins.filter fun p => decide (p.side = some Side.bottom)

/-- The larger of the left and right pin counts, used for the height. -/
def maxVOf (comp : ComponentItem) : Int :=
  max ((leftPinsOf comp.pins).length : Int) ((rightPinsOf comp.pins).length : Int)

/-- contentHeight of the placer: HEADER_HEIGHT + maxV * PIN_SPACING * 2. -/
def contentHeightFor (comp : ComponentItem) : Int :=
  HEADER_HEIGHT + maxVOf comp * PIN_SPACING * 2

/-- The height the placer assigns: Math.ceil((Math.max(contentHeight, 100) + 40)
/ GRID_SIZE) * GRID_SIZE. -/
def heightFor (comp : ComponentItem) : Int :=
  ceilDiv (max (contentHeightFor comp) 100 + 40) 20 * 20

/-- The width the placer assigns: Math.ceil(220 / GRID_SIZE) * GRID_SIZE. -/
def widthFor : Int := ceilDiv 220 20 * 20

/-- The row major flow layout of the initialization effect: component number i
lands in column i mod 3 and row i div 3 (the source increments col and wraps
it to 0 after column 2), at x = 60 + col * 320 and y = 60 + row * 350. -/
def initPositions (comps : List ComponentItem) : List (String × Pos) :=
  comps.enum.map fun ic =>
    let i : Int := ic.1
    let comp := ic.2
    (comp.id, ⟨60 + i % 3 * 320, 60 + i / 3 * 350, widthFor, heightFor comp⟩)

/-! ## Obstacle field -/

/-- The obstacle padding around every component footprint. -/
def padding : Int := 2

/-- Membership in the blocked cell set. The source fills a Set by iterating
x from gx - padding to gx + gw + padding and y from gy - padding to
gy + gh + padding over every placement; a cell is in that set exactly when
some placement's padded grid rectangle contains it. -/
def blockedCells (positions : List (String × Pos)) (c : Point) : Bool :=
  positions.any fun kp =>
    let gx := toGrid ((kp.2.x : ℚ))
    let gy := toGrid ((kp.2.y : ℚ))
    let gw := toGrid ((kp.2.w : ℚ))
    let gh := toGrid ((kp.2.h : ℚ))
    decide (gx - padding ≤ c.x) && decide (c.x ≤ gx + gw + padding) &&
    decide (gy - padding ≤ c.y) && decide (c.y ≤ gy + gh + padding)

/-! ## Pin locator -/

/-- The pin matching predicate: String(p.pinNumber) === String(conn.pin) or
p.name === String(conn.pin). -/
def pinQuery (pin : String) (p : PinDefinition) : Bool :=
  decide (p.pinNumber = pin ∨ p.name = pin)

/-- The exact pixel location and side the pin resolution computes. -/
structure PinLoc where
  px : ℚ
  py : ℚ
  side : Side
deriving DecidableEq

/-- The pixel pin location of a connection: search the left, right, top and
bottom groups in order for a matching pin; left and right pins use the
header plus spacing offset, top and bottom pins divide the width evently;
an identifier with no match in any group falls back to the component
origin with side left (px = py = 0 in the source before any branch runs,
so the fallback is the absolute origin). Returns none exactly when the
component or its placement is missing. -/
def resolvePinPx (components : List ComponentItem) (positions : List (String × Pos))
    (conn : NetConnection) : Option PinLoc :=
  match components.find? (fun c => decide (c.id = conn.componentId)),
        posGet positions conn.componentId with
  | some comp, some pos =>
    let lp := leftPinsOf comp.pins
    let rp := rightPinsOf comp.pins
    let tp := topPinsOf comp.pins
    let bp := bottomPinsOf comp.pins
    some (match lp.findIdx? (pinQuery conn.pin) with
      | some idx =>
        ⟨(pos.x : ℚ),
         (pos.y : ℚ) + HEADER_HEIGHT + PIN_SPACING + idx * PIN_SPACING * 2, Side.left⟩
      | none => match rp.findIdx? (pinQuery conn.pin) with
        | some idx =>
          ⟨((pos.x + pos.w : Int) : ℚ),
           (pos.y : ℚ) + HEADER_HEIGHT + PIN_SPACING + idx * PIN_SPACING * 2, Side.right⟩
        | none => match tp.findIdx? (pinQuery conn.pin) with
          | some idx =>
            ⟨(pos.x : ℚ) + (pos.w : ℚ) / (tp.length + 1) * (idx + 1), (pos.y : ℚ), Side.top⟩
          | none => match bp.findIdx? (pinQuery conn.pin) with
            | some idx =>
              ⟨(pos.x : ℚ) + (pos.w : ℚ) / (bp.length + 1) * (idx + 1),
               ((pos.y + pos.h : Int) : ℚ), Side.bottom⟩
            | none => ⟨0, 0, Side.left⟩)
  | _, _ => none

/-- A resolved pin point as the router stores it: the grid cell of the pixel
location, plus the side. -/
structure PinPt where
  p : Point
  side : Side
deriving DecidableEq

/-- The grid pin point pushed onto pinPoints: toGrid of the pixel location. -/
def resolvePin (components : List ComponentItem) (positions : List (String × Pos))
    (conn : NetConnection) : Option PinPt :=
  (resolvePinPx components positions conn).map fun l =>
    ⟨⟨toGrid l.px, toGrid l.py⟩, l.side⟩

/-- The access point one grid cell outward of a pin, by its side. -/
def getAccessPoint (pt : Point) : Side → Point
  | Side.left => ⟨pt.x - 1, pt.y⟩
  | Side.right => ⟨pt.x + 1, pt.y⟩
  | Side.top => ⟨pt.x, pt.y - 1⟩
  | Side.bottom => ⟨pt.x, pt.y + 1⟩

/-! ## Net router -/

/-- The search margin around the two access points. -/
def routeMargin : Int := 20

/-- The search window of one segment: the bounding box of the two access
points grown by the margin. -/
def segBounds (sA eA : Point) : GridBounds :=
  ⟨min sA.x eA.x - routeMargin, max sA.x eA.x + routeMargin,
   min sA.y eA.y - routeMargin, max sA.y eA.y + routeMargin⟩

/-- The default signal color. -/
def signalColor : String := "#059669"

/-- The power color. -/
def powerColor : String := "#dc2626"

/-- The ground color. -/
def groundColor : String := "#1e293b"

/-- Does the pattern occur at the head of the character list. -/
def hasPfx : List Char → List Char → Bool
  | [], _ => true
  | _ :: _, [] => false
  | a :: as, b :: bs => decide (a = b) && hasPfx as bs

/-- Does the pattern occur anywhere in the character list, as the JavaScript
String.includes test does. -/
def hasSubL (pat : List Char) : List Char → Bool
  | [] => hasPfx pat []
  | c :: cs => hasPfx pat (c :: cs) || hasSubL pat cs

/-- Substring test on strings. -/
def hasSub (s pat : String) : Bool := hasSubL pat.toList s.toList

/-- Color selection of the router: start from the signal color, switch to the
power color when the declared class is power or the name contains VCC, 3V3 or
5V, then switch to the ground color when the declared class is ground or the
name contains GND. Both name tests run regardless of the declared class, and
the ground assignment runs last. -/
def colorOf (net : Net) : String :=
  let c0 := signalColor
  let c1 := if decide (net.type = some NetType.power) || hasSub net.name "VCC" ||
      hasSub net.name "3V3" || hasSub net.name "5V" then powerColor else c0
  let c2 := if decide (net.type = some NetType.ground) || hasSub net.name "GND"
    then groundColor else c1
  c2

/-- Mapping a grid point to its pixel point. -/
def toPxPoint (q : Point) : Point := ⟨toPx q.x, toPx q.y⟩

/-- One chained route segment between two consecutive resolved pin points:
run the pathfinder between the two access points, then prepend and append the
grid pin points, and map everything to pixels. -/
def mkRoute (net : Net) (obstacles : Point → Bool) (s e : PinPt) (i : Nat) : Route :=
  let sA := getAccessPoint s.p s.side
  let eA := getAccessPoint e.p e.side
  let path := findPathAStar sA eA obstacles (segBounds sA eA)
  let finalPath := s.p :: (path ++ [e.p])
  ⟨finalPath.map toPxPoint,
   colorOf net, net.id ++ "-" ++ toString i, net.name⟩

/-- The chain loop over consecutive pin point pairs, carrying the segment
index used in the route id. -/
def chain (net : Net) (obstacles : Point → Bool) : List PinPt → Nat → List Route
  | s :: e :: rest, i => mkRoute net obstacles s e i :: chain net obstacles (e :: rest) (i + 1)
  | _, _ => []

/-- The pin points that resolve for a net, in connection order. -/
def resolvedPts (components : List ComponentItem) (positions : List (String × Pos))
    (net : Net) : List PinPt :=
  net.connections.filterMap (resolvePin components positions)

/-- All routes of one net: resolve every connection (connections whose
component or placement is missing are skipped), produce nothing when fewer
than two points resolved, otherwise chain consecutive pairs from segment
index 0. -/
def routesForNet (components : List ComponentItem) (positions : List (String × Pos))
    (obstacles : Point → Bool) (net : Net) : List Route :=
  let pts := resolvedPts components positions net
  if pts.length < 2 then [] else chain net obstacles pts 0

/-- The full routing pass: the routes of every net in net order, against the
obstacle field of the current placements. -/
def routes (data : SchematicData) (positions : List (String × Pos)) : List Route :=
  data.nets.flatMap (routesForNet data.components positions (blockedCells positions))

/-! ## Path shape predicates -/

/-- A ternary chain predicate over consecutive triples of a list. -/
def Chain3 (P : Point → Point → Point → Prop) : List Point → Prop
  | a :: b :: c :: rest => P a b c ∧ Chain3 P (b :: c :: rest)
  | _ => True

/-- Every consecutive pair of the list is one orthogonal unit step apart. -/
def UnitChain : List Point → Prop
  | a :: b :: rest => (|b.x - a.x| + |b.y - a.y| = 1) ∧ UnitChain (b :: rest)
  | _ => True

/-- The list never makes an immediate reversal: in any consecutive triple the
third point differs from the first (for a unit chain this says the direction
never flips by 180 degrees). -/
def NoRev : List Point → Prop :=
  Chain3 fun a _ c => c ≠ a

/-- The point b lies a positive number of steps from a along the unit
direction d. -/
def StraightFrom (a b d : Point) : Prop :=
  ∃ k : Int, 1 ≤ k ∧ b.x = a.x + k * d.x ∧ b.y = a.y + k * d.y

/-- The step from a to b as a direction vector. -/
def stepOf (a b : Point) : Point := ⟨b.x - a.x, b.y - a.y⟩

/-- The second to last element of a list. -/
def penult (l : List Point) : Option Point := l.dropLast.getLast?

/-- A cell the search may enter: inside the window, and not blocked unless it
is the end cell. -/
def validCell (endP : Point) (obstacles : Point → Bool) (gb : GridBounds) (c : Point) : Prop :=
  inBounds gb c = true ∧ (obstacles c = false ∨ c = endP)

/-- Consecutive pairs of a list. -/
def segPairs (xs : List PinPt) : List (PinPt × PinPt) := xs.zip xs.tail

/-! ## The height formula as the specification words it -/

/-- The height formula claimed by the specification: ceil of the larger of
contentHeight and a minimum height, over the quantum, times the quantum
(without the extra padding of 40 the source adds before dividing). -/
def specHeightFormula (minHeight : Int) (comp : ComponentItem) : Int :=
  ceilDiv (max (contentHeightFor comp) minHeight) 20 * 20

/-! ## Concrete instances -/

/-- Component with one right pin. -/
def compA : ComponentItem := ⟨"A", "A", [⟨"1", "OUT", some Side.right⟩]⟩

/-- Component with one left pin. -/
def compB : ComponentItem := ⟨"B", "B", [⟨"1", "IN", some Side.left⟩]⟩

/-- Component with one top pin. -/
def compC : ComponentItem := ⟨"C", "C", [⟨"1", "T", some Side.top⟩]⟩

/-- A net from the right pin of A to the left pin of B. -/
def netAB : Net := ⟨"n1", "SIG1", [⟨"A", "1"⟩, ⟨"B", "1"⟩], none⟩

/-- A net from the top pin of C to the left pin of B. -/
def netCB : Net := ⟨"n2", "SIG2", [⟨"C", "1"⟩, ⟨"B", "1"⟩], none⟩

/-- A three connection net across A, B and C. -/
def netABC : Net := ⟨"n3", "SIG3", [⟨"A", "1"⟩, ⟨"B", "1"⟩, ⟨"C", "1"⟩], none⟩

/-- The three component example input. -/
def dataABC : SchematicData := ⟨[compA, compB, compC], [netAB, netCB]⟩

/-- The placer output for the three component example. -/
def posABC : List (String × Pos) := initPositions dataABC.components

/-- Four components without pins, for the placement grid claim. -/
def comps4 : List ComponentItem :=
  [⟨"X0", "X0", []⟩, ⟨"X1", "X1", []⟩, ⟨"X2", "X2", []⟩, ⟨"X3", "X3", []⟩]

/-- A component with no pins at all. -/
def compNoPins : ComponentItem := ⟨"Z", "Z", []⟩

/-- A component with five left pins and one right pin (scenario D). -/
def compD : ComponentItem :=
  ⟨"D", "D",
   [⟨"1", "L1", some Side.left⟩, ⟨"2", "L2", some Side.left⟩, ⟨"3", "L3", some Side.left⟩,
    ⟨"4", "L4", some Side.left⟩, ⟨"5", "L5", some Side.left⟩, ⟨"6", "R1", some Side.right⟩]⟩

/-- A component with five left pins only. -/
def compDLeft : ComponentItem :=
  ⟨"DL", "DL",
   [⟨"1", "L1", some Side.left⟩, ⟨"2", "L2", some Side.left⟩, ⟨"3", "L3", some Side.left⟩,
    ⟨"4", "L4", some Side.left⟩, ⟨"5", "L5", some Side.left⟩]⟩

/-- A net named GND_MAIN with no declared class (scenario B). -/
def netGndMain : Net := ⟨"g1", "GND_MAIN", [], none⟩

/-- A net whose declared class is signal but whose name contains GND. -/
def netGndSignal : Net := ⟨"g2", "GND_SENSE", [], some NetType.signal⟩

/-- An obstacle function blocking only the origin. -/
def obsOrigin : Point → Bool := fun p => decide (p = ⟨0, 0⟩)

/-- The S shaped corridor obstacle set used as a search example. -/
def obsS : Point → Bool := fun p =>
  decide (p = ⟨1, 0⟩ ∨ p = ⟨1, 1⟩ ∨ p = ⟨1, 2⟩ ∨ p = ⟨3, 1⟩ ∨ p = ⟨3, 2⟩ ∨ p = ⟨3, 3⟩)

/-- Components of the small footprint layout used for the frame effect claim:
A and B carry the net, C is unconnected. -/
def comps9 : List ComponentItem := [compA, compB, ⟨"C", "C", []⟩]

/-- The net between A and B only. -/
def net9 : Net := ⟨"n1", "SIG", [⟨"A", "1"⟩, ⟨"B", "1"⟩], none⟩

/-- The frame effect input: one net, three components. -/
def data9 : SchematicData := ⟨comps9, [net9]⟩

/-- Layout before the move: A and B near the origin, C far away. -/
def posBefore9 : List (String × Pos) :=
  [("A", ⟨0, 0, 0, 0⟩), ("B", ⟨140, 0, 0, 0⟩), ("C", ⟨1000, 1000, 0, 0⟩)]

/-- Layout after moving only C onto the straight line between the pins of A
and B (grid aligned: x and y are multiples of 20). -/
def posAfter9 : List (String × Pos) := posSet posBefore9 "C" ⟨20, 80, 0, 0⟩

/-- Layout after moving only C from one far location to another far one. -/
def posFar9 : List (String × Pos) := posSet posBefore9 "C" ⟨2000, 2000, 0, 0⟩

/-- Invariant of every frontier entry used for the safety facts: the path
begins at the start cell, ends at the entry position, and every cell after
the start passed the obstacle guard (not blocked, unless it is the end). -/
def EntryInv (start endP : Point) (obstacles : Point → Bool) (e : QEntry) : Prop :=
  e.path.head? = some start ∧ e.path.getLast? = some e.pos ∧
  ∀ q ∈ e.path.tail, obstacles q = false ∨ q = endP

/-- The accumulated move cost of an entry, recovered from its stored
priority: priority minus the heuristic part; the start entry (no incoming
direction) was enqueued at priority 0 with cost 0. -/
def gOf (endP : Point) (e : QEntry) (pr : Int) : Int :=
  match e.dir with
  | none => 0
  | some _ => pr - 10 * getManhattanDistance e.pos endP

/-- Well-formedness of one frontier entry relative to the visited map: the
path ends at the position, is a unit step chain with no immediate reversal,
the visited cost of the position is at most the entry cost, and for an
extended entry the incoming direction is one of the four, the position is
the step from the path's second to last cell, the position passed the
guards, and the predecessor's visited cost is at least one base move below
the entry cost. -/
def EntryWF (endP : Point) (obstacles : Point → Bool) (gb : GridBounds)
    (visited : List (Point × Int)) (e : QEntry) (pr : Int) : Prop :=
  e.path.getLast? = some e.pos ∧ UnitChain e.path ∧ NoRev e.path ∧
  (∃ vb, vget visited e.pos = some vb ∧ vb ≤ gOf endP e pr) ∧
  (match e.dir with
   | none => e.path = [e.pos] ∧ pr = 0
   | some d => d ∈ dirs ∧
       ∃ q, penult e.path = some q ∧ e.pos = nextCell q d ∧
       validCell endP obstacles gb e.pos ∧
       ∃ vq, vget visited q = some vq ∧ vq + 10 ≤ gOf endP e pr)

/-- All enterable neighbors of cell b have a visited cost at most vb plus
one base move and one turn penalty. -/
def NbrBound (endP : Point) (obstacles : Point → Bool) (gb : GridBounds)
    (visited : List (Point × Int)) (b : Point) (vb : Int) : Prop :=
  ∀ d ∈ dirs, validCell endP obstacles gb (nextCell b d) →
    ∃ va, vget visited (nextCell b d) = some va ∧ va ≤ vb + 60

/-- The staleness bookkeeping of the frontier: at every queue position,
either the entry's cost is the current visited cost of its cell, or an
entry somewhere ahead of it carries the current visited cost of that cell,
or every enterable neighbor of the cell is already bounded. -/
def QueueClauses (endP : Point) (obstacles : Point → Bool) (gb : GridBounds)
    (visited : List (Point × Int)) (queue : List (QEntry × Int)) : Prop :=
  ∀ l₁ x l₂, queue = l₁ ++ x :: l₂ →
    vget visited x.1.pos = some (gOf endP x.1 x.2) ∨
    (∃ y ∈ l₁, y.1.pos = x.1.pos ∧ vget visited x.1.pos = some (gOf endP y.1 y.2)) ∨
    (∃ vb, vget visited x.1.pos = some vb ∧ NbrBound endP obstacles gb visited x.1.pos vb)

/-- The staleness bookkeeping with entries at one exempt cell (the cell of
the entry being expanded, whose clause is restored after the expansion). -/
def QueueClausesExc (endP : Point) (obstacles : Point → Bool) (gb : GridBounds)
    (visited : List (Point × Int)) (queue : List (QEntry × Int)) (b : Point) : Prop :=
  ∀ l₁ x l₂, queue = l₁ ++ x :: l₂ →
    x.1.pos = b ∨
    vget visited x.1.pos = some (gOf endP x.1 x.2) ∨
    (∃ y ∈ l₁, y.1.pos = x.1.pos ∧ vget visited x.1.pos = some (gOf endP y.1 y.2)) ∨
    (∃ vb, vget visited x.1.pos = some vb ∧ NbrBound endP obstacles gb visited x.1.pos vb)

/-- Every visited cost is nonnegative. -/
def VisNonneg (visited : List (Point × Int)) : Prop :=
  ∀ c v, vget visited c = some v → 0 ≤ v

/-- The full search state invariant. -/
def QueueInv (endP : Point) (obstacles : Point → Bool) (gb : GridBounds) (st : AState) : Prop :=
  (∀ x ∈ st.queue, EntryWF endP obstacles gb st.visited x.1 x.2) ∧
  QueueClauses endP obstacles gb st.visited st.queue ∧
  VisNonneg st.visited

/-- The state invariant held in the middle of one neighbor expansion of an
entry at cell b whose visited cost is vb0 and whose visited map was vis at
the start of the expansion: entry wellformedness and staleness clauses
(with cell b exempt), nonnegative costs, the visited map only lowered and
only extended relative to vis, and the visited cost of b untouched. -/
def MidInv (endP : Point) (obstacles : Point → Bool) (gb : GridBounds)
    (vis : List (Point × Int)) (b : Point) (vb0 : Int) (S : AState) : Prop :=
  (∀ x ∈ S.queue, EntryWF endP obstacles gb S.visited x.1 x.2) ∧
  QueueClausesExc endP obstacles gb S.visited S.queue b ∧
  VisNonneg S.visited ∧
  (∀ c v, vget vis c = some v → ∃ v2, vget S.visited c = some v2 ∧ v2 ≤ v) ∧
  (∀ c, vget S.visited c = none → vget vis c = none) ∧
  vget S.visited b = some vb0

/-! # Theorems -/

/-- The integer form of Math.round used in the embedding agrees with the
Mathlib rounding function (floor of v + 1/2, halves toward positive
infinity), which is the JavaScript Math.round on exact values. -/
theorem jsRound_eq_round (v : ℚ) : jsRound v = round v := by
  rw [round_eq]
  have hden0 : ((v.den : ℚ)) ≠ 0 := by
    exact_mod_cast v.den_nz
  have h : v + 1 / 2 = (((2 * v.num + (v.den : Int) : Int) : ℚ)) / (((2 * v.den : ℕ) : ℚ)) := by
    conv_lhs => rw [← Rat.num_div_den v]
    push_cast
    field_simp
    ring
  rw [h, Rat.floor_intCast_div_natCast]
  unfold jsRound
  push_cast
  rfl

/-- The integer ceiling division used in the embedding agrees with the
Mathlib ceiling of the rational quotient, which is the JavaScript Math.ceil
on exact values. -/
theorem ceilDiv_eq_ceil (a : Int) : ceilDiv a 20 = Int.ceil ((a : ℚ) / 20) := by
  have h : ((a : ℚ)) / 20 = -(((-a : Int) : ℚ) / ((20 : ℕ) : ℚ)) := by push_cast; ring
  rw [h, Int.ceil_neg, Rat.floor_intCast_div_natCast]
  unfold ceilDiv
  push_cast
  rfl

/-- Claim C4, counterexample: for the component with no pins the placer
assigns height 140 (the source adds a padding of 40 before rounding), while
the claimed formula ceil(max(contentHeight, minHeight) / Q) * Q gives 100
with the minimum height 100 the source names. -/
theorem c4_counterexample :
    heightFor compNoPins = 140 ∧ specHeightFormula 100 compNoPins = 100 ∧
    heightFor compNoPins ≠ specHeightFormula 100 compNoPins := by
  refine ⟨by decide, by decide, by decide⟩

/-- Claim C4, amended: the placer assigns height
ceil((max(contentHeight, 100) + 40) / Q) * Q with
contentHeight = 40 + 2 * 20 * max(leftCount, rightCount) (unassigned pins
count as left), and width 220 (the base width rounded up to the quantum);
a component with five left pins and one right pin gets height 280, the same
as a component with five left pins only. -/
theorem c4_height_formula_amended :
    (∀ comps : List ComponentItem, ∀ entry ∈ initPositions comps,
      ∃ comp ∈ comps, entry.1 = comp.id ∧
        entry.2.h = Int.ceil (((max (40 + max ((leftPinsOf comp.pins).length : Int)
            ((rightPinsOf comp.pins).length : Int) * 20 * 2) 100 + 40 : Int) : ℚ) / 20) * 20 ∧
        entry.2.w = 220) ∧
    heightFor compD = 280 ∧ heightFor compD = heightFor compDLeft := by
  refine ⟨?_, by decide, by decide⟩
  intro comps entry hmem
  unfold initPositions at hmem
  rcases List.mem_map.mp hmem with ⟨ic, hic, rfl⟩
  refine ⟨ic.2, ?_, rfl, ?_, rfl⟩
  · have : ic.2 ∈ comps.enum.map Prod.snd := List.mem_map_of_mem Prod.snd hic
    rwa [List.enum_map_snd] at this
  · show heightFor ic.2 = _
    rw [← ceilDiv_eq_ceil]
    simp [heightFor, contentHeightFor, maxVOf, HEADER_HEIGHT, PIN_SPACING]

/-- Claim C5, counterexample: a net whose declared class is signal but whose
name contains GND is colored with the ground color, so the declared class is
not consulted first. -/
theorem c5_counterexample :
    netGndSignal.type = some NetType.signal ∧
    colorOf netGndSignal = groundColor ∧ groundColor ≠ signalColor := by
  refine ⟨rfl, by decide, by decide⟩

/-- Claim C5, amended: the route color is the ground color when the declared
class is ground or the name contains GND (this test runs last and wins over
everything), otherwise the power color when the declared class is power or
the name contains VCC, 3V3 or 5V, otherwise the signal color; the name
patterns are consulted regardless of the declared class. A net named
GND_MAIN with no declared class gets the ground color. -/
theorem c5_color_amended :
    (∀ net : Net, colorOf net =
      if (decide (net.type = some NetType.ground) || hasSub net.name "GND") = true
      then groundColor
      else if (decide (net.type = some NetType.power) || hasSub net.name "VCC" ||
          hasSub net.name "3V3" || hasSub net.name "5V") = true
      then powerColor else signalColor) ∧
    colorOf netGndMain = groundColor ∧ groundColor ≠ signalColor := by
  refine ⟨fun net => ?_, by decide, by decide⟩
  unfold colorOf
  by_cases hg : (decide (net.type = some NetType.ground) || hasSub net.name "GND") = true
  · simp [hg]
  · by_cases hp : (decide (net.type = some NetType.power) || hasSub net.name "VCC" ||
        hasSub net.name "3V3" || hasSub net.name "5V") = true
    · simp [hg, hp]
    · simp [hg, hp]

/-- Every route path point produced by the chain is a pixel image of a grid
point. -/
theorem chain_path_px (net : Net) (obstacles : Point → Bool) :
    ∀ (pts : List PinPt) (i : Nat) (r : Route), r ∈ chain net obstacles pts i →
      ∀ pt ∈ r.path, ∃ q : Point, pt = toPxPoint q := by
  intro pts
  induction pts with
  | nil => intro i r hr; simp [chain] at hr
  | cons s rest ih =>
    intro i r hr
    match rest, hr with
    | [], hr => simp [chain] at hr
    | e :: rest, hr =>
      rw [chain] at hr
      rcases List.mem_cons.mp hr with hr | hr
      · subst hr
        intro pt hpt
        simp only [mkRoute] at hpt
        rcases List.mem_map.mp hpt with ⟨q, _, rfl⟩
        exact ⟨q, rfl⟩
      · exact ih (i + 1) r hr

/-- Claim C2, counterexample: with four components the fourth placement has
y = 60 + 350 = 410, which is not a multiple of the grid quantum 20 (the row
height 350 is not a multiple of 20). -/
theorem c2_counterexample :
    (initPositions comps4)[3]? = some ("X3", ⟨60, 410, 220, 140⟩) ∧
    ¬ (20 : Int) ∣ 410 := by
  refine ⟨by decide, by decide⟩

/-- Claim C2, amended: every coordinate of every point of every returned
route path is a multiple of the quantum 20, and every initial placement has
x, w and h multiples of 20; the initial y equals 60 + row * 350 and is a
multiple of 20 exactly when the row index is even (the row height 350 is not
quantized). -/
theorem c2_grid_quantum_amended :
    (∀ (data : SchematicData) (positions : List (String × Pos)),
      ∀ r ∈ routes data positions, ∀ pt ∈ r.path, (20 : Int) ∣ pt.x ∧ (20 : Int) ∣ pt.y) ∧
    (∀ comps : List ComponentItem, ∀ entry ∈ initPositions comps,
      (20 : Int) ∣ entry.2.x ∧ (20 : Int) ∣ entry.2.w ∧ (20 : Int) ∣ entry.2.h ∧
      ∃ row : Int, entry.2.y = 60 + row * 350 ∧ ((20 : Int) ∣ entry.2.y ↔ 2 ∣ row)) := by
  constructor
  · intro data positions r hr pt hpt
    rcases List.mem_flatMap.mp hr with ⟨net, _, hrnet⟩
    unfold routesForNet at hrnet
    by_cases hlen : (resolvedPts data.components positions net).length < 2
    · simp [hlen] at hrnet
    · simp only [hlen, if_false] at hrnet
      rcases chain_path_px net (blockedCells positions) _ 0 r hrnet pt hpt with ⟨q, rfl⟩
      exact ⟨⟨q.x, by simp [toPxPoint, toPx, GRID_SIZE, mul_comm]⟩,
             ⟨q.y, by simp [toPxPoint, toPx, GRID_SIZE, mul_comm]⟩⟩
  · intro comps entry hmem
    unfold initPositions at hmem
    rcases List.mem_map.mp hmem with ⟨ic, _, rfl⟩
    refine ⟨⟨3 + 16 * ((ic.1 : Int) % 3), by ring⟩, ⟨11, rfl⟩,
            ⟨ceilDiv (max (contentHeightFor ic.2) 100 + 40) 20,
              by simp [heightFor, mul_comm]⟩,
            (ic.1 : Int) / 3, rfl, ?_⟩
    show (20 : Int) ∣ 60 + (ic.1 : Int) / 3 * 350 ↔ 2 ∣ (ic.1 : Int) / 3
    generalize (ic.1 : Int) / 3 = row
    omega

/-- Claim C4, witness: the first placement entry of the four component list
instantiates the amended height and width formula. -/
theorem c4_witness :
    ∃ comp ∈ comps4, ("X0", Pos.mk 60 60 220 140).1 = comp.id ∧
      ("X0", Pos.mk 60 60 220 140).2.h =
        Int.ceil (((max (40 + max ((leftPinsOf comp.pins).length : Int)
          ((rightPinsOf comp.pins).length : Int) * 20 * 2) 100 + 40 : Int) : ℚ) / 20) * 20 ∧
      ("X0", Pos.mk 60 60 220 140).2.w = 220 :=
  c4_height_formula_amended.1 comps4 ("X0", Pos.mk 60 60 220 140) (by decide)

/-- Claim C2, witness: a concrete route point is a multiple of the quantum,
and a concrete placement entry instantiates the amended placement clause. -/
theorem c2_witness :
    ((20 : Int) ∣ (Point.mk 280 120).x ∧ (20 : Int) ∣ (Point.mk 280 120).y) ∧
    ((20 : Int) ∣ (Pos.mk 60 410 220 140).x ∧ (20 : Int) ∣ (Pos.mk 60 410 220 140).w ∧
      (20 : Int) ∣ (Pos.mk 60 410 220 140).h ∧
      ∃ row : Int, (Pos.mk 60 410 220 140).y = 60 + row * 350 ∧
        ((20 : Int) ∣ (Pos.mk 60 410 220 140).y ↔ 2 ∣ row)) :=
  ⟨c2_grid_quantum_amended.1 dataABC posABC
      (Route.mk [⟨280, 120⟩, ⟨300, 120⟩, ⟨360, 120⟩, ⟨360, 120⟩, ⟨380, 120⟩]
        "#059669" "n1-0" "SIG1") (by decide) ⟨280, 120⟩ (by decide),
   c2_grid_quantum_amended.2 comps4 ("X3", Pos.mk 60 410 220 140) (by decide)⟩

/-- The chain produces one route per consecutive pair of pin points. -/
theorem chain_length (net : Net) (obstacles : Point → Bool) :
    ∀ (pts : List PinPt) (i : Nat), (chain net obstacles pts i).length = pts.length - 1 := by
  intro pts
  induction pts with
  | nil => intro i; simp [chain]
  | cons s rest ih =>
    intro i
    cases rest with
    | nil => simp [chain]
    | cons e rest2 =>
      rw [chain]
      simp only [List.length_cons]
      rw [ih (i + 1)]
      simp

/-- The route at chain index j is built from pin points j and j plus one,
with segment index i plus j. -/
theorem chain_get (net : Net) (obstacles : Point → Bool) :
    ∀ (pts : List PinPt) (i j : Nat) (r : Route),
      (chain net obstacles pts i)[j]? = some r →
      ∃ s e : PinPt, pts[j]? = some s ∧ pts[j + 1]? = some e ∧
        r = mkRoute net obstacles s e (i + j) := by
  intro pts
  induction pts with
  | nil => intro i j r h; simp [chain] at h
  | cons s rest ih =>
    intro i j r h
    cases rest with
    | nil => simp [chain] at h
    | cons e rest2 =>
      rw [chain] at h
      cases j with
      | zero =>
        simp only [List.getElem?_cons_zero, Option.some.injEq] at h
        exact ⟨s, e, rfl, by simp, by simp [← h]⟩
      | succ j =>
        simp only [List.getElem?_cons_succ] at h
        rcases ih (i + 1) j r h with ⟨s', e', h1, h2, h3⟩
        refine ⟨s', e', by simpa using h1, by simpa using h2, ?_⟩
        rw [h3]
        have : i + 1 + j = i + (j + 1) := by omega
        rw [this]

/-- First path point of one chained segment: the pixel image of the start
pin point. -/
theorem mkRoute_head (net : Net) (obstacles : Point → Bool) (s e : PinPt) (i : Nat) :
    (mkRoute net obstacles s e i).path.head? = some (toPxPoint s.p) := by
  simp [mkRoute]

/-- Last path point of one chained segment: the pixel image of the end pin
point. -/
theorem mkRoute_last (net : Net) (obstacles : Point → Bool) (s e : PinPt) (i : Nat) :
    (mkRoute net obstacles s e i).path.getLast? = some (toPxPoint e.p) := by
  simp only [mkRoute]
  rw [List.getLast?_map, ← List.cons_append, List.getLast?_concat]
  rfl

/-- The pixel image of a grid point never equals the pixel image of any of
its access points (they differ by one full quantum in one coordinate). -/
theorem toPx_ne_access (p : Point) (s : Side) :
    toPxPoint p ≠ toPxPoint (getAccessPoint p s) := by
  cases s <;> simp [toPxPoint, toPx, getAccessPoint, GRID_SIZE, Point.mk.injEq] <;> omega

/-- Claim C7: a net with fewer than two resolved connections produces no
route; with n resolved points (a connection resolves exactly when its
component and its placement exist) it produces n minus one chained routes,
whose ids are the net id, a dash, and the segment index. -/
theorem c7_route_count (components : List ComponentItem) (positions : List (String × Pos))
    (obstacles : Point → Bool) (net : Net) :
    ((resolvedPts components positions net).length < 2 →
      routesForNet components positions obstacles net = []) ∧
    (2 ≤ (resolvedPts components positions net).length →
      (routesForNet components positions obstacles net).length =
        (resolvedPts components positions net).length - 1) ∧
    (∀ (j : Nat) (r : Route), (routesForNet components positions obstacles net)[j]? = some r →
      r.id = net.id ++ "-" ++ toString j) := by
  refine ⟨fun hlen => ?_, fun hlen => ?_, fun j r h => ?_⟩
  · unfold routesForNet
    simp [hlen]
  · unfold routesForNet
    rw [if_neg (by omega)]
    exact chain_length net obstacles _ 0
  · unfold routesForNet at h
    by_cases hlen : (resolvedPts components positions net).length < 2
    · simp [hlen] at h
    · simp only [hlen, if_false] at h
      rcases chain_get net obstacles _ 0 j r h with ⟨s, e, _, _, rfl⟩
      simp [mkRoute]

/-- Claim C7, witness: the three connection net across the three placed
components resolves three pin points and produces exactly two routes. -/
theorem c7_witness :
    2 ≤ (resolvedPts dataABC.components posABC netABC).length ∧
    (routesForNet dataABC.components posABC (blockedCells posABC) netABC).length =
      (resolvedPts dataABC.components posABC netABC).length - 1 ∧
    (resolvedPts dataABC.components posABC netABC).length = 3 :=
  ⟨by decide,
   (c7_route_count dataABC.components posABC (blockedCells posABC) netABC).2.1 (by decide),
   by decide⟩

/-- Claim C10: consecutive route segments of one net share their junction
point: the last path point of segment j equals the first path point of
segment j plus one (both are the pixel image of the shared resolved pin). -/
theorem c10_chain_connected (components : List ComponentItem)
    (positions : List (String × Pos)) (obstacles : Point → Bool) (net : Net)
    (j : Nat) (r1 r2 : Route)
    (h1 : (routesForNet components positions obstacles net)[j]? = some r1)
    (h2 : (routesForNet components positions obstacles net)[j + 1]? = some r2) :
    ∃ q : Point, r1.path.getLast? = some q ∧ r2.path.head? = some q := by
  unfold routesForNet at h1 h2
  by_cases hlen : (resolvedPts components positions net).length < 2
  · simp [hlen] at h1
  · simp only [hlen, if_false] at h1 h2
    rcases chain_get net obstacles _ 0 j r1 h1 with ⟨s, e, _, he, rfl⟩
    rcases chain_get net obstacles _ 0 (j + 1) r2 h2 with ⟨s', e', hs', _, rfl⟩
    have hse : s' = e := by
      rw [he] at hs'
      exact (Option.some.injEq _ _).mp hs'.symm
    subst hse
    exact ⟨toPxPoint s'.p, mkRoute_last _ _ _ _ _, mkRoute_head _ _ _ _ _⟩

/-- Claim C10, witness: the two routes of the three connection net meet at
the shared pixel point of the middle pin. -/
theorem c10_witness :
    ∃ q : Point,
      (Route.mk [⟨280, 120⟩, ⟨300, 120⟩, ⟨360, 120⟩, ⟨360, 120⟩, ⟨380, 120⟩]
        "#059669" "n3-0" "SIG3").path.getLast? = some q ∧
      (Route.mk [⟨380, 120⟩, ⟨360, 120⟩, ⟨820, 120⟩, ⟨820, 40⟩, ⟨820, 60⟩]
        "#059669" "n3-1" "SIG3").path.head? = some q :=
  c10_chain_connected dataABC.components posABC (blockedCells posABC) netABC 0 _ _
    (by decide) (by decide)

/-- Claim C1, amended: the first and last point of every route segment are
the pixel images toPx(toGrid(p)) of the exact pixel pin locations p of its
two connections, that is the pin location snapped to the grid quantum, and
never the access point; the snapped location equals the exact pixel location
only when that location is a multiple of the quantum. -/
theorem c1_pin_snap_amended :
    (∀ (components : List ComponentItem) (positions : List (String × Pos))
       (obstacles : Point → Bool) (net : Net) (j : Nat) (r : Route),
      (routesForNet components positions obstacles net)[j]? = some r →
      ∃ s e : PinPt, (resolvedPts components positions net)[j]? = some s ∧
        (resolvedPts components positions net)[j + 1]? = some e ∧
        r.path.head? = some (toPxPoint s.p) ∧
        r.path.getLast? = some (toPxPoint e.p) ∧
        r.path.head? ≠ some (toPxPoint (getAccessPoint s.p s.side)) ∧
        r.path.getLast? ≠ some (toPxPoint (getAccessPoint e.p e.side))) ∧
    (∀ (components : List ComponentItem) (positions : List (String × Pos)) (net : Net)
       (pt : PinPt), pt ∈ resolvedPts components positions net →
      ∃ conn ∈ net.connections, ∃ loc : PinLoc,
        resolvePinPx components positions conn = some loc ∧
        pt.p = ⟨toGrid loc.px, toGrid loc.py⟩ ∧ pt.side = loc.side) := by
  constructor
  · intro components positions obstacles net j r h
    unfold routesForNet at h
    by_cases hlen : (resolvedPts components positions net).length < 2
    · simp [hlen] at h
    · simp only [hlen, if_false] at h
      rcases chain_get net obstacles _ 0 j r h with ⟨s, e, hs, he, rfl⟩
      refine ⟨s, e, hs, he, mkRoute_head _ _ _ _ _, mkRoute_last _ _ _ _ _, ?_, ?_⟩
      · rw [mkRoute_head]
        intro hcontra
        exact toPx_ne_access s.p s.side ((Option.some.injEq _ _).mp hcontra)
      · rw [mkRoute_last]
        intro hcontra
        exact toPx_ne_access e.p e.side ((Option.some.injEq _ _).mp hcontra)
  · intro components positions net pt hmem
    unfold resolvedPts at hmem
    rcases List.mem_filterMap.mp hmem with ⟨conn, hconn, hres⟩
    unfold resolvePin at hres
    rcases Option.map_eq_some'.mp hres with ⟨loc, hloc, rfl⟩
    exact ⟨conn, hconn, loc, hloc, rfl, rfl⟩

/-- Claim C1, witness: for the net from the right pin of A to the left pin
of B, the route endpoints are the snapped pixel pin locations and not the
access points. -/
theorem c1_witness :
    ∃ s e : PinPt, (resolvedPts dataABC.components posABC netAB)[0]? = some s ∧
      (resolvedPts dataABC.components posABC netAB)[1]? = some e ∧
      (Route.mk [⟨280, 120⟩, ⟨300, 120⟩, ⟨360, 120⟩, ⟨360, 120⟩, ⟨380, 120⟩]
        "#059669" "n1-0" "SIG1").path.head? = some (toPxPoint s.p) ∧
      (Route.mk [⟨280, 120⟩, ⟨300, 120⟩, ⟨360, 120⟩, ⟨360, 120⟩, ⟨380, 120⟩]
        "#059669" "n1-0" "SIG1").path.getLast? = some (toPxPoint e.p) ∧
      (Route.mk [⟨280, 120⟩, ⟨300, 120⟩, ⟨360, 120⟩, ⟨360, 120⟩, ⟨380, 120⟩]
        "#059669" "n1-0" "SIG1").path.head? ≠
        some (toPxPoint (getAccessPoint s.p s.side)) ∧
      (Route.mk [⟨280, 120⟩, ⟨300, 120⟩, ⟨360, 120⟩, ⟨360, 120⟩, ⟨380, 120⟩]
        "#059669" "n1-0" "SIG1").path.getLast? ≠
        some (toPxPoint (getAccessPoint e.p e.side)) := by
  have h := c1_pin_snap_amended.1 dataABC.components posABC (blockedCells posABC) netAB 0
    (Route.mk [⟨280, 120⟩, ⟨300, 120⟩, ⟨360, 120⟩, ⟨360, 120⟩, ⟨380, 120⟩]
      "#059669" "n1-0" "SIG1") (by decide)
  rcases h with ⟨s, e, hs, he, h1, h2, h3, h4⟩
  exact ⟨s, e, hs, he, h1, h2, by simpa using h3, by simpa using h4⟩

/-- Claim C1, counterexample: the top pin of component C sits at exact pixel
x = 700 + 220 / 2 = 810, but the route for the net from that pin starts at
pixel x = 820 (the grid snapped location), not at 810: the first point of
the route does not equal the exact pixel location the pin locator computes. -/
theorem c1_counterexample :
    resolvePinPx dataABC.components posABC ⟨"C", "1"⟩ = some ⟨810, 60, Side.top⟩ ∧
    ((routes dataABC posABC)[1]?).map (fun r => r.path.head?) = some (some ⟨820, 60⟩) ∧
    ((820 : Int) : ℚ) ≠ 810 := by
  refine ⟨by decide, by decide, by decide⟩

/-- Membership after a sorted insertion: the new pair, or an old element. -/
theorem mem_sortedInsert (e : QEntry) (p : Int) :
    ∀ (l : List (QEntry × Int)) (x : QEntry × Int),
      x ∈ sortedInsert e p l ↔ x = (e, p) ∨ x ∈ l := by
  intro l
  induction l with
  | nil => intro x; simp [sortedInsert]
  | cons hd tl ih =>
    intro x
    rw [sortedInsert]
    by_cases hq : hd.2 ≤ p
    · rw [if_pos hq, List.mem_cons, ih x, List.mem_cons]
      tauto
    · rw [if_neg hq]
      simp only [List.mem_cons]

/-- A queue element after one relaxation step is an old element or the
freshly enqueued neighbor entry, which passed the obstacle guard. -/
theorem relaxDir_queue_mem (endP : Point) (obstacles : Point → Bool) (gb : GridBounds)
    (cur : QEntry) (cost : Int) (st : AState) (d : Point) (x : QEntry × Int)
    (hx : x ∈ (relaxDir endP obstacles gb cur cost st d).queue) :
    x ∈ st.queue ∨
      (x.1.path = cur.path ++ [nextCell cur.pos d] ∧
       x.1.pos = nextCell cur.pos d ∧
       (obstacles (nextCell cur.pos d) = false ∨ nextCell cur.pos d = endP)) := by
  unfold relaxDir at hx
  by_cases h1 : inBounds gb (nextCell cur.pos d) = true
  · simp only [h1, not_true, if_false] at hx
    by_cases h2 : obstacles (nextCell cur.pos d) = true ∧ ¬ (nextCell cur.pos d = endP)
    · rw [if_pos h2] at hx
      exact Or.inl hx
    · rw [if_neg h2] at hx
      have hok : obstacles (nextCell cur.pos d) = false ∨ nextCell cur.pos d = endP := by
        by_cases hobs : obstacles (nextCell cur.pos d) = true
        · right
          by_contra hne
          exact h2 ⟨hobs, hne⟩
        · exact Or.inl (by simpa using hobs)
      set fr : Bool :=
        match vget st.visited (nextCell cur.pos d) with
        | some old => decide (cost + 10 + turnOf cur.dir d < old)
        | none => true with hfr
      by_cases h3 : fr = true
      · rw [if_pos h3] at hx
        simp only at hx
        rcases (mem_sortedInsert _ _ _ _).mp hx with hx | hx
        · right
          rw [hx]
          exact ⟨rfl, rfl, hok⟩
        · exact Or.inl hx
      · rw [if_neg h3] at hx
        exact Or.inl hx
  · simp only [h1] at hx
    rw [if_pos (by simp)] at hx
    exact Or.inl hx

/-- Queue membership through the whole neighbor expansion. -/
theorem expand_queue_mem (endP : Point) (obstacles : Point → Bool) (gb : GridBounds)
    (cur : QEntry) (cost : Int) :
    ∀ (ds : List Point) (st : AState) (x : QEntry × Int),
      x ∈ (ds.foldl (relaxDir endP obstacles gb cur cost) st).queue →
      x ∈ st.queue ∨ ∃ d, x.1.path = cur.path ++ [nextCell cur.pos d] ∧
        x.1.pos = nextCell cur.pos d ∧
        (obstacles (nextCell cur.pos d) = false ∨ nextCell cur.pos d = endP) := by
  intro ds
  induction ds with
  | nil => intro st x hx; exact Or.inl hx
  | cons d ds ih =>
    intro st x hx
    rcases ih _ x hx with hx2 | hx2
    · rcases relaxDir_queue_mem endP obstacles gb cur cost st d x hx2 with hx3 | hx3
      · exact Or.inl hx3
      · exact Or.inr ⟨d, hx3⟩
    · exact Or.inr hx2

/-- The entry invariant extends along an enqueued neighbor. -/
theorem EntryInv_extend (start endP : Point) (obstacles : Point → Bool)
    (cur : QEntry) (hcur : EntryInv start endP obstacles cur) (q : QEntry)
    (c : Point) (hpath : q.path = cur.path ++ [c]) (hpos : q.pos = c)
    (hok : obstacles c = false ∨ c = endP) :
    EntryInv start endP obstacles q := by
  rcases hcur with ⟨h1, h2, h3⟩
  have hne : cur.path ≠ [] := by
    intro h
    rw [h] at h1
    simp at h1
  refine ⟨?_, ?_, ?_⟩
  · rw [hpath, List.head?_append, h1]
    rfl
  · rw [hpath, hpos, List.getLast?_concat]
  · intro r hr
    rw [hpath] at hr
    rcases List.exists_cons_of_ne_nil hne with ⟨a, l, hal⟩
    rw [hal] at hr
    simp only [List.cons_append, List.tail_cons] at hr
    rcases List.mem_append.mp hr with hr | hr
    · exact h3 r (by rw [hal]; simpa using hr)
    · rcases List.mem_singleton.mp hr with rfl
      exact hok

/-- Unfolding equation of the search loop at a nonempty frontier. -/
theorem aStarLoop_cons (endP : Point) (obstacles : Point → Bool) (gb : GridBounds)
    (fuel : Nat) (cur : QEntry) (pr : Int) (rest : List (QEntry × Int))
    (visited : List (Point × Int)) :
    aStarLoop endP obstacles gb (fuel + 1) ⟨(cur, pr) :: rest, visited⟩ =
      if cur.pos = endP then some (optimize cur.path)
      else aStarLoop endP obstacles gb fuel
        (expand endP obstacles gb cur ((vget visited cur.pos).getD 0) ⟨rest, visited⟩) := rfl

/-- Unfolding equation of the search loop at an empty frontier. -/
theorem aStarLoop_nil (endP : Point) (obstacles : Point → Bool) (gb : GridBounds)
    (fuel : Nat) (visited : List (Point × Int)) :
    aStarLoop endP obstacles gb (fuel + 1) ⟨[], visited⟩ = none := rfl

/-- Any successful search result is the optimized path of an entry
satisfying the invariant and positioned at the end cell. -/
theorem aStarLoop_success (start endP : Point) (obstacles : Point → Bool) (gb : GridBounds) :
    ∀ (fuel : Nat) (st : AState) (p : List Point),
      (∀ x ∈ st.queue, EntryInv start endP obstacles x.1) →
      aStarLoop endP obstacles gb fuel st = some p →
      ∃ e : QEntry, EntryInv start endP obstacles e ∧ e.pos = endP ∧
        p = optimize e.path := by
  intro fuel
  induction fuel with
  | zero => intro st p _ h; simp [aStarLoop] at h
  | succ fuel ih =>
    intro st p hinv h
    obtain ⟨qu, vis⟩ := st
    match qu, hinv, h with
    | [], hinv, h => rw [aStarLoop_nil] at h; exact absurd h (by simp)
    | (cur, pr) :: rest, hinv, h =>
      rw [aStarLoop_cons] at h
      by_cases hend : cur.pos = endP
      · rw [if_pos hend] at h
        exact ⟨cur, hinv (cur, pr) (List.mem_cons_self _ _), hend,
          ((Option.some.injEq _ _).mp h).symm⟩
      · rw [if_neg hend] at h
        refine ih _ p ?_ h
        intro x hx
        rcases expand_queue_mem endP obstacles gb cur _ dirs ⟨rest, vis⟩ x hx with
          hx2 | ⟨d, h1, h2, h3⟩
        · exact hinv x (List.mem_cons_of_mem _ hx2)
        · exact EntryInv_extend start endP obstacles cur
            (hinv (cur, pr) (List.mem_cons_self _ _)) x.1 (nextCell cur.pos d) h1 h2 h3

/-- Every kept interior point comes from the original path. -/
theorem keepMids_subset : ∀ (l : List Point), ∀ q ∈ keepMids l, q ∈ l := by
  intro l
  induction l with
  | nil => intro q hq; simp [keepMids] at hq
  | cons a rest ih =>
    intro q hq
    match rest, hq with
    | [], hq => simp [keepMids] at hq
    | [b], hq => simp [keepMids] at hq
    | b :: c :: rest, hq =>
      rw [keepMids] at hq
      rcases List.mem_append.mp hq with hq | hq
      · by_cases hc : collinearB a b c
        · simp [hc] at hq
        · simp [hc] at hq
          rw [hq]
          exact List.mem_cons_of_mem _ (List.mem_cons_self _ _)
      · exact List.mem_cons_of_mem _ (ih q hq)

/-- Every point of the optimized path comes from the original path. -/
theorem optimize_subset : ∀ (l : List Point), ∀ q ∈ optimize l, q ∈ l := by
  intro l q hq
  match l, hq with
  | [], hq => simp [optimize] at hq
  | p :: ps, hq =>
    rw [optimize] at hq
    rcases List.mem_cons.mp hq with hq | hq
    · rw [hq]; exact List.mem_cons_self _ _
    · rcases List.mem_append.mp hq with hq | hq
      · exact keepMids_subset _ q hq
      · rcases List.mem_singleton.mp hq with rfl
        exact List.getLastD_mem_cons ps p

/-- The optimized path of a nonempty path is nonempty. -/
theorem optimize_ne_nil (l : List Point) (h : l ≠ []) : optimize l ≠ [] := by
  match l with
  | [] => exact absurd rfl h
  | p :: ps => simp [optimize]

/-- Claim C3: for every pair of cells, every obstacle set and every search
window, findPathAStar returns a nonempty path; whenever the search loop is
inconclusive (iteration cap hit or frontier exhausted) the result is the
naive Manhattan fallback path, which is exactly the start, the corner at
the end x and start y, and the end. -/
theorem c3_fallback_nonempty (s e : Point) (obstacles : Point → Bool) (gb : GridBounds) :
    findPathAStar s e obstacles gb ≠ [] ∧
    (aStarRun s e obstacles gb = none →
      findPathAStar s e obstacles gb = fallbackPath s e) ∧
    fallbackPath s e = [s, ⟨e.x, s.y⟩, e] := by
  have hinit : ∀ x ∈ (initState s).queue, EntryInv s e obstacles x.1 := by
    intro x hx
    rcases List.mem_singleton.mp hx with rfl
    exact ⟨rfl, rfl, by simp⟩
  refine ⟨?_, ?_, rfl⟩
  · unfold findPathAStar
    match h : aStarRun s e obstacles gb with
    | none => simp [fallbackPath]
    | some p =>
      rcases aStarLoop_success s e obstacles gb MAX_ITER (initState s) p hinit h with
        ⟨en, ⟨h1, _, _⟩, _, rfl⟩
      apply optimize_ne_nil
      intro hnil
      rw [hnil] at h1
      simp at h1
  · intro h
    unfold findPathAStar
    rw [h]

/-- Claim C3, witness: in the sealed layout the frontier empties and the
fallback path is returned. -/
theorem c3_witness :
    findPathAStar ⟨1, 3⟩ ⟨6, 3⟩ (blockedCells posAfter9) (segBounds ⟨1, 3⟩ ⟨6, 3⟩) =
      fallbackPath ⟨1, 3⟩ ⟨6, 3⟩ :=
  (c3_fallback_nonempty ⟨1, 3⟩ ⟨6, 3⟩ (blockedCells posAfter9)
    (segBounds ⟨1, 3⟩ ⟨6, 3⟩)).2.1 (by decide)

/-- Claim C6, counterexample: with the start cell itself blocked, a
successful search returns a path containing the blocked start, which is not
the destination: the claim that only the destination may be blocked fails. -/
theorem c6_counterexample :
    aStarRun ⟨0, 0⟩ ⟨1, 0⟩ obsOrigin ⟨-5, 5, -5, 5⟩ = some [⟨0, 0⟩, ⟨1, 0⟩] ∧
    obsOrigin ⟨0, 0⟩ = true ∧ (⟨0, 0⟩ : Point) ≠ ⟨1, 0⟩ ∧
    (⟨0, 0⟩ : Point) ∈ [(⟨0, 0⟩ : Point), ⟨1, 0⟩] := by
  refine ⟨by decide, by decide, by decide, by decide⟩

/-- Claim C6, amended: on every successful search, every cell of the
returned path other than the start cell and the destination cell is outside
the blocked set (the start is never checked against the obstacles, and the
destination is exempt by the end cell exception). -/
theorem c6_blocked_amended (s e : Point) (obstacles : Point → Bool) (gb : GridBounds)
    (p : List Point) (h : aStarRun s e obstacles gb = some p) :
    findPathAStar s e obstacles gb = p ∧
    ∀ q ∈ p, obstacles q = false ∨ q = s ∨ q = e := by
  have hinit : ∀ x ∈ (initState s).queue, EntryInv s e obstacles x.1 := by
    intro x hx
    rcases List.mem_singleton.mp hx with rfl
    exact ⟨rfl, rfl, by simp⟩
  constructor
  · unfold findPathAStar
    rw [h]
  · rcases aStarLoop_success s e obstacles gb MAX_ITER (initState s) p hinit h with
      ⟨en, ⟨h1, _, h3⟩, _, rfl⟩
    intro q hq
    have hqpath : q ∈ en.path := optimize_subset _ q hq
    have hne : en.path ≠ [] := by
      intro hnil
      rw [hnil] at h1
      simp at h1
    rcases List.exists_cons_of_ne_nil hne with ⟨a, l, hal⟩
    have ha : a = s := by
      rw [hal] at h1
      simpa using h1
    rw [hal] at hqpath
    rcases List.mem_cons.mp hqpath with rfl | hql
    · exact Or.inr (Or.inl ha)
    · rcases h3 q (by rw [hal]; simpa using hql) with hobs | rfl
      · exact Or.inl hobs
      · exact Or.inr (Or.inr rfl)

/-- Claim C6, witness: the amended statement at the blocked start instance. -/
theorem c6_witness :
    findPathAStar ⟨0, 0⟩ ⟨1, 0⟩ obsOrigin ⟨-5, 5, -5, 5⟩ = [⟨0, 0⟩, ⟨1, 0⟩] ∧
    ∀ q ∈ [(⟨0, 0⟩ : Point), ⟨1, 0⟩],
      obsOrigin q = false ∨ q = ⟨0, 0⟩ ∨ q = ⟨1, 0⟩ :=
  c6_blocked_amended ⟨0, 0⟩ ⟨1, 0⟩ obsOrigin ⟨-5, 5, -5, 5⟩ [⟨0, 0⟩, ⟨1, 0⟩] (by decide)

/-- One relaxation step only consults the obstacle function on cells inside
the search window (the bounds check runs first), so two obstacle functions
agreeing there produce the same step. -/
theorem relaxDir_congr (endP : Point) (obs1 obs2 : Point → Bool) (gb : GridBounds)
    (hobs : ∀ q, inBounds gb q = true → obs1 q = obs2 q)
    (cur : QEntry) (cost : Int) (st : AState) (d : Point) :
    relaxDir endP obs1 gb cur cost st d = relaxDir endP obs2 gb cur cost st d := by
  unfold relaxDir
  dsimp only
  by_cases h1 : inBounds gb (nextCell cur.pos d) = true
  · rw [hobs _ h1]
  · rw [if_pos (by simpa using h1), if_pos (by simpa using h1)]

/-- The whole neighbor expansion respects obstacle agreement on the window. -/
theorem expand_congr (endP : Point) (obs1 obs2 : Point → Bool) (gb : GridBounds)
    (hobs : ∀ q, inBounds gb q = true → obs1 q = obs2 q)
    (cur : QEntry) (cost : Int) :
    ∀ (ds : List Point) (st : AState),
      ds.foldl (relaxDir endP obs1 gb cur cost) st =
        ds.foldl (relaxDir endP obs2 gb cur cost) st := by
  intro ds
  induction ds with
  | nil => intro st; rfl
  | cons d ds ih =>
    intro st
    simp only [List.foldl_cons]
    rw [relaxDir_congr endP obs1 obs2 gb hobs cur cost st d]
    exact ih _

/-- The search loop respects obstacle agreement on the window. -/
theorem aStarLoop_congr (endP : Point) (obs1 obs2 : Point → Bool) (gb : GridBounds)
    (hobs : ∀ q, inBounds gb q = true → obs1 q = obs2 q) :
    ∀ (fuel : Nat) (st : AState),
      aStarLoop endP obs1 gb fuel st = aStarLoop endP obs2 gb fuel st := by
  intro fuel
  induction fuel with
  | zero => intro st; rfl
  | succ fuel ih =>
    intro st
    obtain ⟨qu, vis⟩ := st
    match qu with
    | [] => rfl
    | (cur, pr) :: rest =>
      rw [aStarLoop_cons, aStarLoop_cons]
      by_cases hend : cur.pos = endP
      · rw [if_pos hend, if_pos hend]
      · rw [if_neg hend, if_neg hend]
        unfold expand
        rw [expand_congr endP obs1 obs2 gb hobs]
        exact ih _

/-- The pathfinder respects obstacle agreement on the window. -/
theorem findPathAStar_congr (s e : Point) (obs1 obs2 : Point → Bool) (gb : GridBounds)
    (hobs : ∀ q, inBounds gb q = true → obs1 q = obs2 q) :
    findPathAStar s e obs1 gb = findPathAStar s e obs2 gb := by
  unfold findPathAStar aStarRun
  rw [aStarLoop_congr e obs1 obs2 gb hobs]

/-- Looking up a key other than the one set returns the old entry. -/
theorem posGet_posSet_ne :
    ∀ (l : List (String × Pos)) (c k : String) (v : Pos), k ≠ c →
      posGet (posSet l c v) k = posGet l k := by
  intro l
  induction l with
  | nil =>
    intro c k v hk
    simp only [posSet, posGet]
    rw [if_neg (fun h => hk h.symm)]
  | cons hd tl ih =>
    intro c k v hk
    rw [posSet]
    by_cases hc : hd.1 = c
    · rw [if_pos hc]
      match hd with
      | (k0, p0) =>
        simp only at hc
        subst hc
        rw [posGet, posGet, if_neg (fun h => hk h.symm), if_neg (fun h => hk h.symm)]
    · rw [if_neg hc]
      match hd with
      | (k0, p0) =>
        rw [posGet, posGet]
        by_cases hk0 : k0 = k
        · rw [if_pos hk0, if_pos hk0]
        · rw [if_neg hk0, if_neg hk0]
          exact ih c k v hk

/-- Pin resolution of a connection not referencing the moved component is
unchanged by the move. -/
theorem resolvePinPx_frame (components : List ComponentItem) (positions : List (String × Pos))
    (c : String) (newp : Pos) (conn : NetConnection) (hc : conn.componentId ≠ c) :
    resolvePinPx components (posSet positions c newp) conn =
      resolvePinPx components positions conn := by
  unfold resolvePinPx
  rw [posGet_posSet_ne positions c conn.componentId newp hc]

/-- The resolved pin points of a net with no connection to the moved
component are unchanged by the move. -/
theorem resolvedPts_frame (components : List ComponentItem) (positions : List (String × Pos))
    (c : String) (newp : Pos) (net : Net)
    (hconn : ∀ conn ∈ net.connections, conn.componentId ≠ c) :
    resolvedPts components (posSet positions c newp) net =
      resolvedPts components positions net := by
  unfold resolvedPts
  have h : ∀ (conns : List NetConnection), (∀ conn ∈ conns, conn.componentId ≠ c) →
      conns.filterMap (resolvePin components (posSet positions c newp)) =
      conns.filterMap (resolvePin components positions) := by
    intro conns hc
    induction conns with
    | nil => rfl
    | cons conn rest ih =>
      rw [List.filterMap_cons, List.filterMap_cons]
      have hp : resolvePin components (posSet positions c newp) conn =
          resolvePin components positions conn := by
        unfold resolvePin
        rw [resolvePinPx_frame components positions c newp conn
          (hc conn (List.mem_cons_self _ _))]
      rw [hp, ih (fun x hx => hc x (List.mem_cons_of_mem _ hx))]
  exact h net.connections hconn

/-- Consecutive pairs of a list with at least two elements. -/
theorem segPairs_cons (s e : PinPt) (rest : List PinPt) :
    segPairs (s :: e :: rest) = (s, e) :: segPairs (e :: rest) := rfl

/-- The chain of one net respects obstacle agreement on its segment search
windows. -/
theorem chain_congr (net : Net) (obs1 obs2 : Point → Bool) :
    ∀ (pts : List PinPt) (i : Nat),
      (∀ pr ∈ segPairs pts, ∀ q : Point,
        inBounds (segBounds (getAccessPoint pr.1.p pr.1.side)
          (getAccessPoint pr.2.p pr.2.side)) q = true → obs1 q = obs2 q) →
      chain net obs1 pts i = chain net obs2 pts i := by
  intro pts
  induction pts with
  | nil => intro i _; rfl
  | cons s rest ih =>
    intro i hobs
    cases rest with
    | nil => rfl
    | cons e rest2 =>
      rw [segPairs_cons] at hobs
      rw [chain, chain]
      have hb : ∀ q : Point, inBounds (segBounds (getAccessPoint s.p s.side)
          (getAccessPoint e.p e.side)) q = true → obs1 q = obs2 q :=
        hobs (s, e) (List.mem_cons_self _ _)
      have hmk : mkRoute net obs1 s e i = mkRoute net obs2 s e i := by
        unfold mkRoute
        dsimp only
        rw [findPathAStar_congr _ _ obs1 obs2 _ hb]
      rw [hmk, ih (i + 1) (fun pr hpr => hobs pr (List.mem_cons_of_mem _ hpr))]

/-- Claim C9, counterexample: moving only the unconnected component C onto
the corridor between the pins of A and B changes the route of the net
between A and B, although that net has no connection to C: the routes of
nets not touching the moved component are not always unchanged, because the
obstacle field is global. -/
theorem c9_counterexample :
    posAfter9 = posSet posBefore9 "C" ⟨20, 80, 0, 0⟩ ∧
    (∀ conn ∈ net9.connections, conn.componentId ≠ "C") ∧
    data9.nets = [net9] ∧
    routes data9 posBefore9 ≠ routes data9 posAfter9 := by
  refine ⟨rfl, by decide, rfl, by decide⟩

/-- Claim C9, amended: after moving only component c, the routes of a net
with no connection to c are identical provided the blocked cell field is
unchanged on the search window of each of its segments; in general the
obstacle field is global, so a move can reroute a net that does not touch
the moved component (see the counterexample), but the net's resolved pin
points themselves never change. -/
theorem c9_frame_amended (components : List ComponentItem) (positions : List (String × Pos))
    (c : String) (newp : Pos) (net : Net)
    (hconn : ∀ conn ∈ net.connections, conn.componentId ≠ c)
    (hobs : ∀ pr ∈ segPairs (resolvedPts components positions net), ∀ q : Point,
      inBounds (segBounds (getAccessPoint pr.1.p pr.1.side)
        (getAccessPoint pr.2.p pr.2.side)) q = true →
      blockedCells positions q = blockedCells (posSet positions c newp) q) :
    resolvedPts components (posSet positions c newp) net =
      resolvedPts components positions net ∧
    routesForNet components (posSet positions c newp)
        (blockedCells (posSet positions c newp)) net =
      routesForNet components positions (blockedCells positions) net := by
  have hpts := resolvedPts_frame components positions c newp net hconn
  refine ⟨hpts, ?_⟩
  unfold routesForNet
  rw [hpts]
  by_cases hlen : (resolvedPts components positions net).length < 2
  · rw [if_pos hlen, if_pos hlen]
  · rw [if_neg hlen, if_neg hlen]
    exact (chain_congr net (blockedCells positions)
      (blockedCells (posSet positions c newp)) _ 0 hobs).symm

/-- Claim C9, witness: moving the unconnected component C between two far
away locations keeps both the resolved pin points and the routes of the net
between A and B unchanged, by the amended frame theorem. -/
theorem c9_witness :
    resolvedPts comps9 (posSet posBefore9 "C" ⟨2000, 2000, 0, 0⟩) net9 =
      resolvedPts comps9 posBefore9 net9 ∧
    routesForNet comps9 (posSet posBefore9 "C" ⟨2000, 2000, 0, 0⟩)
        (blockedCells (posSet posBefore9 "C" ⟨2000, 2000, 0, 0⟩)) net9 =
      routesForNet comps9 posBefore9 (blockedCells posBefore9) net9 := by
  refine c9_frame_amended comps9 posBefore9 "C" ⟨2000, 2000, 0, 0⟩ net9 (by decide) ?_
  have hsp : segPairs (resolvedPts comps9 posBefore9 net9) =
      [(⟨⟨0, 3⟩, Side.right⟩, ⟨⟨7, 3⟩, Side.left⟩)] := by decide
  rw [hsp]
  intro pr hpr q hq
  rcases List.mem_singleton.mp hpr with rfl
  have hq2 : inBounds ⟨-19, 26, -17, 23⟩ q = true := hq
  simp only [inBounds, Bool.and_eq_true, decide_eq_true_eq] at hq2
  obtain ⟨⟨⟨hx1, hx2⟩, hy1⟩, hy2⟩ := hq2
  have hps : posSet posBefore9 "C" ⟨2000, 2000, 0, 0⟩ =
      [("A", ⟨0, 0, 0, 0⟩), ("B", ⟨140, 0, 0, 0⟩), ("C", ⟨2000, 2000, 0, 0⟩)] := by decide
  have t0 : toGrid ((0 : Int) : ℚ) = 0 := by decide
  have t140 : toGrid ((140 : Int) : ℚ) = 7 := by decide
  have t1000 : toGrid ((1000 : Int) : ℚ) = 50 := by decide
  have t2000 : toGrid ((2000 : Int) : ℚ) = 100 := by decide
  rw [hps]
  simp only [blockedCells, posBefore9, List.any_cons, List.any_nil, padding]
  simp only [t0, t140, t1000, t2000]
  rw [Bool.eq_iff_iff]
  simp only [Bool.or_eq_true, Bool.and_eq_true, decide_eq_true_eq,
    Bool.false_eq_true, or_false]
  omega

/-- Point equality by coordinates. -/
theorem point_eq_iff (p q : Point) : p = q ↔ p.x = q.x ∧ p.y = q.y := by
  cases p; cases q; simp

/-- Unfolding of the unit chain predicate at two cons cells. -/
theorem unitChain_cons (a b : Point) (rest : List Point) :
    UnitChain (a :: b :: rest) ↔
      (|b.x - a.x| + |b.y - a.y| = 1) ∧ UnitChain (b :: rest) := Iff.rfl

/-- Unfolding of the ternary chain predicate at three cons cells. -/
theorem chain3_cons (P : Point → Point → Point → Prop) (a b c : Point) (rest : List Point) :
    Chain3 P (a :: b :: c :: rest) ↔ P a b c ∧ Chain3 P (b :: c :: rest) := Iff.rfl

/-- Unfolding of the no reversal predicate at three cons cells. -/
theorem noRev_cons (a b c : Point) (rest : List Point) :
    NoRev (a :: b :: c :: rest) ↔ c ≠ a ∧ NoRev (b :: c :: rest) := Iff.rfl

/-- A straight positive run along a unit direction separates its two ends
along that direction's axis. -/
theorem straight_sep (A b d : Point) (hd : |d.x| + |d.y| = 1)
    (h : StraightFrom A b d) :
    (d.x = 0 ∧ A.x = b.x ∧ A.y ≠ b.y) ∨ (d.y = 0 ∧ A.y = b.y ∧ A.x ≠ b.x) := by
  obtain ⟨k, hk, hx, hy⟩ := h
  rw [Int.abs_eq_natAbs, Int.abs_eq_natAbs] at hd
  have hcase : (d.x = 0 ∧ (d.y = 1 ∨ d.y = -1)) ∨ (d.y = 0 ∧ (d.x = 1 ∨ d.x = -1)) := by
    omega
  rcases hcase with ⟨h0, h1 | h1⟩ | ⟨h0, h1 | h1⟩ <;>
    simp only [h0, h1, mul_zero, add_zero, mul_one, mul_neg_one] at hx hy <;>
    omega

/-- At a kept turn point the incoming and outgoing runs use perpendicular
axes, so the previous kept point, the turn, and the next kept point are not
collinear. -/
theorem keep_nc (a b c A m : Point)
    (h1 : |b.x - a.x| + |b.y - a.y| = 1) (h2 : |c.x - b.x| + |c.y - b.y| = 1)
    (hcol : collinearB a b c = false)
    (hA : StraightFrom A b (stepOf a b)) (hm : StraightFrom b m (stepOf b c)) :
    collinearB A b m = false := by
  have hs1 : |(stepOf a b).x| + |(stepOf a b).y| = 1 := by simpa [stepOf] using h1
  have hs2 : |(stepOf b c).x| + |(stepOf b c).y| = 1 := by simpa [stepOf] using h2
  have hsep1 := straight_sep A b _ hs1 hA
  have hsep2 := straight_sep b m _ hs2 hm
  simp only [collinearB, Bool.or_eq_false_iff, Bool.and_eq_false_iff,
    decide_eq_false_iff_not] at hcol ⊢
  simp only [stepOf] at hsep1 hsep2
  rcases hsep1 with ⟨e1, f1, g1⟩ | ⟨e1, f1, g1⟩ <;>
    rcases hsep2 with ⟨e2, f2, g2⟩ | ⟨e2, f2, g2⟩ <;> omega

/-- On a unit chain, a collinear middle point that is not an immediate
reversal continues in the same direction. -/
theorem col_step_eq (a b c : Point)
    (h1 : |b.x - a.x| + |b.y - a.y| = 1) (h2 : |c.x - b.x| + |c.y - b.y| = 1)
    (hca : c ≠ a) (hcol : collinearB a b c = true) : stepOf b c = stepOf a b := by
  have hca2 : c.x ≠ a.x ∨ c.y ≠ a.y := by
    by_contra hcon
    push_neg at hcon
    exact hca ((point_eq_iff c a).mpr ⟨hcon.1, hcon.2⟩)
  simp only [collinearB, Bool.or_eq_true, Bool.and_eq_true, decide_eq_true_eq] at hcol
  rw [Int.abs_eq_natAbs, Int.abs_eq_natAbs] at h1 h2
  rw [point_eq_iff]
  simp only [stepOf]
  omega

/-- Main induction of the turn analysis: walking the post-processing over a
unit chain with no reversals, every kept point is reached from the previous
kept point (or anchor) by a straight run, and consecutive kept point triples
are never collinear. -/
theorem keepMids_turns :
    ∀ (rest : List Point) (a b A : Point),
      UnitChain (a :: b :: rest) → NoRev (a :: b :: rest) →
      StraightFrom A b (stepOf a b) →
      Chain3 (fun p q r => collinearB p q r = false) (A :: keepMids (a :: b :: rest)) ∧
      ∀ m, (keepMids (a :: b :: rest)).head? = some m → StraightFrom A m (stepOf a b) := by
  intro rest
  induction rest with
  | nil =>
    intro a b A _ _ _
    exact ⟨trivial, fun m hm => by simp [keepMids] at hm⟩
  | cons c rest ih =>
    intro a b A hu hn hsf
    rw [unitChain_cons] at hu
    rw [noRev_cons] at hn
    obtain ⟨hstep1, hu2⟩ := hu
    obtain ⟨hca, hn2⟩ := hn
    have hstep2 : |c.x - b.x| + |c.y - b.y| = 1 := ((unitChain_cons b c rest).mp hu2).1
    by_cases hcol : collinearB a b c = true
    · have heq : stepOf b c = stepOf a b := col_step_eq a b c hstep1 hstep2 hca hcol
      have hsf2 : StraightFrom A c (stepOf b c) := by
        obtain ⟨k, hk, hx, hy⟩ := hsf
        have hbcx : c.x - b.x = b.x - a.x := by
          have := congrArg Point.x heq
          simpa [stepOf] using this
        have hbcy : c.y - b.y = b.y - a.y := by
          have := congrArg Point.y heq
          simpa [stepOf] using this
        simp only [stepOf] at hx hy ⊢
        refine ⟨k + 1, by omega, ?_, ?_⟩
        · linear_combination hx - k * hbcx
        · linear_combination hy - k * hbcy
      have hih := ih b c A hu2 hn2 hsf2
      have hkm : keepMids (a :: b :: c :: rest) = keepMids (b :: c :: rest) := by
        rw [keepMids, if_pos hcol, List.nil_append]
      rw [hkm]
      refine ⟨hih.1, fun m hm => ?_⟩
      have hsm := hih.2 m hm
      rwa [heq] at hsm
    · have hcolf : collinearB a b c = false := by
        simp only [Bool.not_eq_true] at hcol
        exact hcol
      have hsf2 : StraightFrom b c (stepOf b c) :=
        ⟨1, le_refl 1, by simp only [stepOf, one_mul]; omega,
          by simp only [stepOf, one_mul]; omega⟩
      have hih := ih b c b hu2 hn2 hsf2
      have hkm : keepMids (a :: b :: c :: rest) = b :: keepMids (b :: c :: rest) := by
        rw [keepMids, if_neg (by simp [hcolf]), List.singleton_append]
      rw [hkm]
      constructor
      · rcases hM : keepMids (b :: c :: rest) with _ | ⟨m, M2⟩
        · exact trivial
        · rw [chain3_cons]
          constructor
          · have hsm : StraightFrom b m (stepOf b c) := hih.2 m (by rw [hM]; rfl)
            exact keep_nc a b c A m hstep1 hstep2 hcolf hsf hsm
          · have := hih.1
            rw [hM] at this
            exact this
      · intro m hm
        simp only [List.head?_cons, Option.some.injEq] at hm
        rw [← hm]
        exact hsf

/-- The ternary chain predicate restricts to the tail. -/
theorem chain3_tail (P : Point → Point → Point → Prop) :
    ∀ (x : Point) (M : List Point), Chain3 P (x :: M) → Chain3 P M := by
  intro x M h
  match M with
  | [] => trivial
  | [_] => trivial
  | y :: z :: M2 => exact ((chain3_cons P x y z M2).mp h).2

/-- The kept interior points of a non reversing unit chain contain no three
consecutive collinear points at all. -/
theorem keepMids_no_collinear (l : List Point) (hu : UnitChain l) (hn : NoRev l) :
    Chain3 (fun p q r => collinearB p q r = false) (keepMids l) := by
  match l with
  | [] => trivial
  | [_] => trivial
  | a :: b :: rest =>
    have hsf : StraightFrom a b (stepOf a b) :=
      ⟨1, le_refl 1, by simp only [stepOf, one_mul]; omega,
        by simp only [stepOf, one_mul]; omega⟩
    exact chain3_tail _ a _ ((keepMids_turns rest a b a hu hn hsf).1)

/-- Reading a ternary chain predicate off three consecutive positions. -/
theorem chain3_getElem (P : Point → Point → Point → Prop) :
    ∀ (M : List Point) (j : Nat) (a b c : Point), Chain3 P M →
      M[j]? = some a → M[j + 1]? = some b → M[j + 2]? = some c → P a b c := by
  intro M
  induction M with
  | nil => intro j a b c _ h1 _ _; simp at h1
  | cons x M ih =>
    intro j a b c hc h1 h2 h3
    cases j with
    | zero =>
      match M, h2, h3 with
      | [], h2, _ => simp at h2
      | [y], _, h3 => simp at h3
      | y :: z :: M2, h2, h3 =>
        simp only [List.getElem?_cons_zero, List.getElem?_cons_succ,
          Option.some.injEq] at h1 h2 h3
        rw [← h1, ← h2, ← h3]
        exact ((chain3_cons P x y z M2).mp hc).1
    | succ j =>
      exact ih j a b c (chain3_tail P x M hc) (by simpa using h1) (by simpa using h2)
        (by simpa using h3)

/-- The optimized output of a non reversing unit chain has no three
consecutive collinear points anywhere in its interior. -/
theorem optimize_interior (l : List Point) (hu : UnitChain l) (hn : NoRev l) :
    ∀ (i : Nat) (a b c : Point), 1 ≤ i → i + 4 ≤ (optimize l).length →
      (optimize l)[i]? = some a → (optimize l)[i + 1]? = some b →
      (optimize l)[i + 2]? = some c → collinearB a b c = false := by
  intro i a b c hi hlen h1 h2 h3
  match l with
  | [] => simp [optimize] at hlen
  | p :: ps =>
    have hnc := keepMids_no_collinear (p :: ps) hu hn
    obtain ⟨j, rfl⟩ : ∃ j, i = j + 1 := ⟨i - 1, by omega⟩
    simp only [optimize] at h1 h2 h3 hlen
    simp only [List.length_cons, List.length_append, List.length_nil] at hlen
    have hj3 : j + 3 ≤ (keepMids (p :: ps)).length := by omega
    rw [show j + 1 + 1 = (j + 1) + 1 from rfl] at h2
    rw [show j + 1 + 2 = (j + 2) + 1 from rfl] at h3
    rw [List.getElem?_cons_succ] at h1 h2 h3
    rw [List.getElem?_append_left (by omega)] at h1
    rw [List.getElem?_append_left (by omega)] at h2
    rw [List.getElem?_append_left (by omega)] at h3
    exact chain3_getElem _ (keepMids (p :: ps)) j a b c hnc h1 h2 h3

/-- Reading the visited map at the key just set returns the new value. -/
theorem vget_vset_self (k : Point) (v : Int) :
    ∀ vis : List (Point × Int), vget (vset vis k v) k = some v := by
  intro vis
  induction vis with
  | nil => simp [vset, vget]
  | cons hd tl ih =>
    obtain ⟨a, w⟩ := hd
    by_cases hak : a = k
    · simp [vset, hak, vget]
    · simp [vset, hak, vget, ih]

/-- Reading the visited map at another key is unchanged by a set. -/
theorem vget_vset_ne (k : Point) (v : Int) (c : Point) (hck : c ≠ k) :
    ∀ vis : List (Point × Int), vget (vset vis k v) c = vget vis c := by
  intro vis
  induction vis with
  | nil => simp [vset, vget, hck.symm]
  | cons hd tl ih =>
    obtain ⟨a, w⟩ := hd
    by_cases hak : a = k
    · simp [vset, hak, vget, hck.symm]
    · simp [vset, hak, vget, ih]

/-- Splitting an insertion result: the distinguished element is either the
inserted one, or it splits the original list with all elements of the old
prefix still ahead of it after the insertion. -/
theorem sortedInsert_split (e : QEntry) (p : Int) :
    ∀ (l l₁ : List (QEntry × Int)) (x : QEntry × Int) (l₂ : List (QEntry × Int)),
      sortedInsert e p l = l₁ ++ x :: l₂ →
      x = (e, p) ∨ ∃ m₁ m₂, l = m₁ ++ x :: m₂ ∧ ∀ y ∈ m₁, y ∈ l₁ := by
  intro l
  induction l with
  | nil =>
    intro l₁ x l₂ h
    simp only [sortedInsert] at h
    cases l₁ with
    | nil =>
      simp only [List.nil_append, List.cons.injEq] at h
      exact Or.inl h.1.symm
    | cons z t => simp at h
  | cons hd tl ih =>
    intro l₁ x l₂ h
    obtain ⟨f, q⟩ := hd
    simp only [sortedInsert] at h
    by_cases hq : q ≤ p
    · rw [if_pos hq] at h
      cases l₁ with
      | nil =>
        simp only [List.nil_append, List.cons.injEq] at h
        refine Or.inr ⟨[], tl, ?_, fun y hy => absurd hy (List.not_mem_nil y)⟩
        rw [← h.1]
        rfl
      | cons z t =>
        simp only [List.cons_append, List.cons.injEq] at h
        rcases ih t x l₂ h.2 with h1 | ⟨m₁, m₂, hm, hsub⟩
        · exact Or.inl h1
        · refine Or.inr ⟨(f, q) :: m₁, m₂, by rw [hm, List.cons_append], ?_⟩
          intro y hy
          rcases List.mem_cons.mp hy with rfl | hy2
          · exact List.mem_cons.mpr (Or.inl h.1)
          · exact List.mem_cons.mpr (Or.inr (hsub y hy2))
    · rw [if_neg hq] at h
      cases l₁ with
      | nil =>
        simp only [List.nil_append, List.cons.injEq] at h
        exact Or.inl h.1.symm
      | cons z t =>
        simp only [List.cons_append, List.cons.injEq] at h
        exact Or.inr ⟨t, l₂, h.2, fun y hy => List.mem_cons.mpr (Or.inr hy)⟩

/-- The inserted element lands ahead of every element of strictly larger
priority, with no sortedness assumption on the list. -/
theorem sortedInsert_ahead (e : QEntry) (p : Int) :
    ∀ (l l₁ : List (QEntry × Int)) (x : QEntry × Int) (l₂ : List (QEntry × Int)),
      sortedInsert e p l = l₁ ++ x :: l₂ → p < x.2 → (e, p) ∈ l₁ := by
  intro l
  induction l with
  | nil =>
    intro l₁ x l₂ h hp
    simp only [sortedInsert] at h
    cases l₁ with
    | nil =>
      simp only [List.nil_append, List.cons.injEq] at h
      rw [← h.1] at hp
      exact absurd hp (lt_irrefl p)
    | cons z t => simp at h
  | cons hd tl ih =>
    intro l₁ x l₂ h hp
    obtain ⟨f, q⟩ := hd
    simp only [sortedInsert] at h
    by_cases hq : q ≤ p
    · rw [if_pos hq] at h
      cases l₁ with
      | nil =>
        simp only [List.nil_append, List.cons.injEq] at h
        rw [← h.1] at hp
        exact absurd hp (not_lt.mpr hq)
      | cons z t =>
        simp only [List.cons_append, List.cons.injEq] at h
        exact List.mem_cons.mpr (Or.inr (ih t x l₂ h.2 hp))
    · rw [if_neg hq] at h
      cases l₁ with
      | nil =>
        simp only [List.nil_append, List.cons.injEq] at h
        rw [← h.1] at hp
        exact absurd hp (lt_irrefl p)
      | cons z t =>
        simp only [List.cons_append, List.cons.injEq] at h
        exact List.mem_cons.mpr (Or.inl h.1)

/-- The four direction constants, itemized. -/
theorem dirs_cases (d : Point) (hd : d ∈ dirs) :
    d = ⟨0, 1⟩ ∨ d = ⟨0, -1⟩ ∨ d = ⟨1, 0⟩ ∨ d = ⟨-1, 0⟩ := by
  simpa [dirs] using hd

/-- Every direction is a unit step. -/
theorem dirs_unit (d : Point) (hd : d ∈ dirs) : |d.x| + |d.y| = 1 := by
  rcases dirs_cases d hd with rfl | rfl | rfl | rfl <;> decide

/-- Every direction is nonzero. -/
theorem dirs_nonzero (d : Point) (hd : d ∈ dirs) : d.x ≠ 0 ∨ d.y ≠ 0 := by
  rcases dirs_cases d hd with rfl | rfl | rfl | rfl <;> simp

/-- Stepping in a direction moves to a different cell. -/
theorem nextCell_ne_self (b d : Point) (hd : d ∈ dirs) : nextCell b d ≠ b := by
  intro h
  have hx := congrArg Point.x h
  have hy := congrArg Point.y h
  dsimp only [nextCell] at hx hy
  rcases dirs_nonzero d hd with h0 | h0 <;> omega

/-- Second to last of a three or longer list ignores the head. -/
theorem penult_cons3 (a b c : Point) (rest : List Point) :
    penult (a :: b :: c :: rest) = penult (b :: c :: rest) := by
  unfold penult
  rw [show (a :: b :: c :: rest).dropLast = a :: (b :: c :: rest).dropLast from rfl]
  rw [show (b :: c :: rest).dropLast = b :: (c :: rest).dropLast from rfl]
  exact List.getLast?_cons_cons

/-- Second to last of a list with one appended element is the old last. -/
theorem penult_concat (l : List Point) (n : Point) :
    penult (l ++ [n]) = l.getLast? := by
  unfold penult
  rw [List.dropLast_concat]

/-- Appending one more unit step to a unit chain keeps it a unit chain. -/
theorem unitChain_snoc :
    ∀ (l : List Point) (b n : Point), UnitChain l → l.getLast? = some b →
      |n.x - b.x| + |n.y - b.y| = 1 → UnitChain (l ++ [n]) := by
  intro l
  induction l with
  | nil => intro b n _ h _; simp at h
  | cons a t ih =>
    intro b n hu hlast hstep
    cases t with
    | nil =>
      simp only [List.getLast?_singleton, Option.some.injEq] at hlast
      exact ⟨by rw [hlast]; exact hstep, trivial⟩
    | cons c t2 =>
      rw [unitChain_cons] at hu
      rw [List.getLast?_cons_cons] at hlast
      show UnitChain (a :: c :: (t2 ++ [n]))
      rw [unitChain_cons]
      exact ⟨hu.1, ih b n hu.2 hlast hstep⟩

/-- Appending one element to a ternary chain: only the final triple is new. -/
theorem chain3_snoc (P : Point → Point → Point → Prop) :
    ∀ (l : List Point) (n : Point), Chain3 P l →
      (∀ x y, penult l = some x → l.getLast? = some y → P x y n) →
      Chain3 P (l ++ [n]) := by
  intro l
  induction l with
  | nil => intro n _ _; trivial
  | cons a t ih =>
    intro n hc hlastp
    cases t with
    | nil => trivial
    | cons c t2 =>
      cases t2 with
      | nil =>
        refine ⟨hlastp a c (by simp [penult]) (by simp), trivial⟩
      | cons e t3 =>
        have hc2 := (chain3_cons P a c e t3).mp hc
        show Chain3 P (a :: c :: e :: (t3 ++ [n]))
        rw [chain3_cons]
        refine ⟨hc2.1, ?_⟩
        exact ih n hc2.2 (fun x y hx hy =>
          hlastp x y ((penult_cons3 a c e t3).trans hx)
            ((List.getLast?_cons_cons).trans hy))

/-- The entry cost of an extended entry, from its stored priority. -/
theorem gOf_some (endP nx : Point) (pa : List Point) (d : Point) (pr : Int) :
    gOf endP ⟨nx, pa, some d⟩ pr = pr - 10 * getManhattanDistance nx endP := rfl

/-- Entry wellformedness survives a pointwise lowering of the visited map. -/
theorem EntryWF_mono (endP : Point) (obstacles : Point → Bool) (gb : GridBounds)
    (v1 v2 : List (Point × Int)) (e : QEntry) (pr : Int)
    (hmono : ∀ c v, vget v1 c = some v → ∃ w, vget v2 c = some w ∧ w ≤ v)
    (h : EntryWF endP obstacles gb v1 e pr) : EntryWF endP obstacles gb v2 e pr := by
  obtain ⟨h1, h2, h3, ⟨vb, hvb, hle⟩, h5⟩ := h
  refine ⟨h1, h2, h3, ?_, ?_⟩
  · obtain ⟨w, hw, hwle⟩ := hmono _ _ hvb
    exact ⟨w, hw, le_trans hwle hle⟩
  · rcases hdir : e.dir with _ | d
    · rw [hdir] at h5
      exact h5
    · rw [hdir] at h5
      obtain ⟨hdd, q, hq, hpos, hval, vq, hvq, hvqle⟩ := h5
      obtain ⟨w, hw, hwle⟩ := hmono _ _ hvq
      exact ⟨hdd, q, hq, hpos, hval, w, hw, by omega⟩

/-- The neighbor bound survives a pointwise lowering of the visited map. -/
theorem NbrBound_mono (endP : Point) (obstacles : Point → Bool) (gb : GridBounds)
    (v1 v2 : List (Point × Int)) (b : Point) (vb : Int)
    (hmono : ∀ c v, vget v1 c = some v → ∃ w, vget v2 c = some w ∧ w ≤ v)
    (h : NbrBound endP obstacles gb v1 b vb) : NbrBound endP obstacles gb v2 b vb := by
  intro d hd hval
  obtain ⟨va, hva, hle⟩ := h d hd hval
  obtain ⟨w, hw, hwle⟩ := hmono _ _ hva
  exact ⟨w, hw, le_trans hwle hle⟩

/-- The turn penalty takes only the two values 0 and 50. -/
theorem turnOf_cases (o : Option Point) (d : Point) : turnOf o d = 0 ∨ turnOf o d = 50 := by
  rcases o with _ | pd
  · exact Or.inl rfl
  · unfold turnOf
    dsimp only
    by_cases h : pd.x ≠ d.x ∨ pd.y ≠ d.y
    · rw [if_pos h]; exact Or.inr rfl
    · rw [if_neg h]; exact Or.inl rfl

/-- A neighbor failing the window or obstacle guard leaves the state as is. -/
theorem relaxDir_invalid (endP : Point) (obstacles : Point → Bool) (gb : GridBounds)
    (cur : QEntry) (cost : Int) (st : AState) (d : Point)
    (h : ¬ validCell endP obstacles gb (nextCell cur.pos d)) :
    relaxDir endP obstacles gb cur cost st d = st := by
  unfold relaxDir
  dsimp only
  by_cases h1 : inBounds gb (nextCell cur.pos d) = true
  · rw [if_neg (not_not_intro h1)]
    have h2 : obstacles (nextCell cur.pos d) = true ∧ ¬ (nextCell cur.pos d = endP) := by
      rcases Bool.eq_false_or_eq_true (obstacles (nextCell cur.pos d)) with hb | hb
      · exact ⟨hb, fun he => h ⟨h1, Or.inr he⟩⟩
      · exact absurd ⟨h1, Or.inl hb⟩ h
    rw [if_pos h2]
  · rw [if_pos h1]

/-- A neighbor failing the relaxation guard leaves the state as is. -/
theorem relaxDir_stale (endP : Point) (obstacles : Point → Bool) (gb : GridBounds)
    (cur : QEntry) (cost : Int) (st : AState) (d : Point)
    (hval : validCell endP obstacles gb (nextCell cur.pos d))
    (hstale : ∃ old, vget st.visited (nextCell cur.pos d) = some old ∧
      ¬ (cost + 10 + turnOf cur.dir d < old)) :
    relaxDir endP obstacles gb cur cost st d = st := by
  obtain ⟨old, hold, hnlt⟩ := hstale
  unfold relaxDir
  dsimp only
  rw [if_neg (not_not_intro hval.1)]
  have hnb : ¬ (obstacles (nextCell cur.pos d) = true ∧ ¬ (nextCell cur.pos d = endP)) := by
    rintro ⟨ho, hne⟩
    rcases hval.2 with h | h
    · rw [h] at ho; simp at ho
    · exact hne h
  rw [if_neg hnb, hold]
  dsimp only
  rw [decide_eq_false hnlt, if_neg (by simp)]

/-- A neighbor passing all guards is enqueued and its visited cost set. -/
theorem relaxDir_fresh (endP : Point) (obstacles : Point → Bool) (gb : GridBounds)
    (cur : QEntry) (cost : Int) (st : AState) (d : Point)
    (hval : validCell endP obstacles gb (nextCell cur.pos d))
    (hfr : ∀ old, vget st.visited (nextCell cur.pos d) = some old →
      cost + 10 + turnOf cur.dir d < old) :
    relaxDir endP obstacles gb cur cost st d =
      ⟨sortedInsert ⟨nextCell cur.pos d, cur.path ++ [nextCell cur.pos d], some d⟩
         (cost + 10 + turnOf cur.dir d +
           getManhattanDistance (nextCell cur.pos d) endP * 10) st.queue,
       vset st.visited (nextCell cur.pos d) (cost + 10 + turnOf cur.dir d)⟩ := by
  unfold relaxDir
  dsimp only
  rw [if_neg (not_not_intro hval.1)]
  have hnb : ¬ (obstacles (nextCell cur.pos d) = true ∧ ¬ (nextCell cur.pos d = endP)) := by
    rintro ⟨ho, hne⟩
    rcases hval.2 with h | h
    · rw [h] at ho; simp at ho
    · exact hne h
  rw [if_neg hnb]
  rcases hg : vget st.visited (nextCell cur.pos d) with _ | old
  · dsimp only
    rw [if_pos rfl]
  · dsimp only
    rw [decide_eq_true (hfr old hg), if_pos rfl]

/-- One neighbor relaxation preserves the mid expansion invariant, only
lowers the visited map, and leaves the processed neighbor's visited cost
bounded by the dequeued cost plus one move and one turn. -/
theorem relaxDir_inv (endP : Point) (obstacles : Point → Bool) (gb : GridBounds)
    (cur : QEntry) (pr : Int) (vis : List (Point × Int)) (vb0 : Int)
    (hcur : EntryWF endP obstacles gb vis cur pr)
    (hvb0 : vget vis cur.pos = some vb0)
    (hK : vb0 = gOf endP cur pr ∨ NbrBound endP obstacles gb vis cur.pos vb0)
    (d : Point) (hd : d ∈ dirs) (S : AState)
    (hS : MidInv endP obstacles gb vis cur.pos vb0 S) :
    MidInv endP obstacles gb vis cur.pos vb0 (relaxDir endP obstacles gb cur vb0 S d) ∧
    (∀ c v, vget S.visited c = some v →
      ∃ w, vget (relaxDir endP obstacles gb cur vb0 S d).visited c = some w ∧ w ≤ v) ∧
    (validCell endP obstacles gb (nextCell cur.pos d) →
      ∃ va, vget (relaxDir endP obstacles gb cur vb0 S d).visited (nextCell cur.pos d) =
        some va ∧ va ≤ vb0 + 60) := by
  obtain ⟨hWF, hQC, hVN, hmono, hdom, hb0⟩ := hS
  obtain ⟨hcl, hcu, hcn, ⟨vbc, hvbc, hvbcle⟩, hcdir⟩ := hcur
  have hturn := turnOf_cases cur.dir d
  have hvb0S : 0 ≤ vb0 := hVN cur.pos vb0 hb0
  have hvb0le : vb0 ≤ gOf endP cur pr := by
    have hv : vbc = vb0 := Option.some.inj (hvbc.symm.trans hvb0)
    omega
  by_cases hval : validCell endP obstacles gb (nextCell cur.pos d)
  · by_cases hstale : ∃ old, vget S.visited (nextCell cur.pos d) = some old ∧
        ¬ (vb0 + 10 + turnOf cur.dir d < old)
    · rw [relaxDir_stale endP obstacles gb cur vb0 S d hval hstale]
      obtain ⟨old, hold, hnlt⟩ := hstale
      refine ⟨⟨hWF, hQC, hVN, hmono, hdom, hb0⟩, fun c v h => ⟨v, h, le_refl v⟩, ?_⟩
      intro _
      exact ⟨old, hold, by omega⟩
    · have hfreshlt : ∀ old, vget S.visited (nextCell cur.pos d) = some old →
          vb0 + 10 + turnOf cur.dir d < old := by
        intro old hold
        by_contra hn
        exact hstale ⟨old, hold, hn⟩
      rw [relaxDir_fresh endP obstacles gb cur vb0 S d hval hfreshlt]
      have hncb : nextCell cur.pos d ≠ cur.pos := nextCell_ne_self cur.pos d hd
      have hstep : ∀ c v, vget S.visited c = some v →
          ∃ w, vget (vset S.visited (nextCell cur.pos d) (vb0 + 10 + turnOf cur.dir d)) c =
            some w ∧ w ≤ v := by
        intro c v h
        by_cases hc : c = nextCell cur.pos d
        · refine ⟨vb0 + 10 + turnOf cur.dir d, ?_, ?_⟩
          · rw [hc]; exact vget_vset_self _ _ _
          · rw [hc] at h; exact le_of_lt (hfreshlt v h)
        · exact ⟨v, by rw [vget_vset_ne _ _ _ hc]; exact h, le_refl v⟩
      have hgOfe : gOf endP ⟨nextCell cur.pos d, cur.path ++ [nextCell cur.pos d], some d⟩
          (vb0 + 10 + turnOf cur.dir d +
            getManhattanDistance (nextCell cur.pos d) endP * 10) =
          vb0 + 10 + turnOf cur.dir d := by
        rw [gOf_some]; omega
      have hVb0V2 : vget (vset S.visited (nextCell cur.pos d) (vb0 + 10 + turnOf cur.dir d))
          cur.pos = some vb0 := by
        rw [vget_vset_ne _ _ _ (Ne.symm hncb)]; exact hb0
      have hstep1 : |(nextCell cur.pos d).x - cur.pos.x| +
          |(nextCell cur.pos d).y - cur.pos.y| = 1 := by
        dsimp only [nextCell]
        have h1 : cur.pos.x + d.x - cur.pos.x = d.x := by ring
        have h2 : cur.pos.y + d.y - cur.pos.y = d.y := by ring
        rw [h1, h2]
        exact dirs_unit d hd
      have hnorev : NoRev (cur.path ++ [nextCell cur.pos d]) := by
        refine chain3_snoc _ cur.path _ hcn ?_
        intro x0 y0 hx0 hy0
        rcases hdir2 : cur.dir with _ | pd
        · rw [hdir2] at hcdir
          rw [hcdir.1] at hx0
          simp [penult] at hx0
        · rw [hdir2] at hcdir
          obtain ⟨hpd, q, hq, hpds, hvalb, vq, hvq, hvqle⟩ := hcdir
          have hx0q : x0 = q := Option.some.inj (hx0.symm.trans hq)
          subst hx0q
          intro hrev
          have h1 := congrArg Point.x hrev
          have h2 := congrArg Point.y hrev
          have h3 := congrArg Point.x hpds
          have h4 := congrArg Point.y hpds
          dsimp only [nextCell] at h1 h2 h3 h4
          have hpdd : pd.x ≠ d.x ∨ pd.y ≠ d.y := by
            rcases dirs_nonzero pd hpd with h | h <;> omega
          have hturn50 : turnOf cur.dir d = 50 := by
            rw [hdir2]
            unfold turnOf
            dsimp only
            rw [if_pos hpdd]
          obtain ⟨vq2, hvq2, hvq2le⟩ := hmono _ vq hvq
          have hlt := hfreshlt vq2 (by rw [hrev]; exact hvq2)
          rcases hK with hK1 | hK3
          · omega
          · obtain ⟨va, hva, hvale⟩ := hK3 d hd hval
            rw [hrev] at hva
            have hvavq : va = vq := Option.some.inj (hva.symm.trans hvq)
            omega
      have hWFnew : EntryWF endP obstacles gb
          (vset S.visited (nextCell cur.pos d) (vb0 + 10 + turnOf cur.dir d))
          ⟨nextCell cur.pos d, cur.path ++ [nextCell cur.pos d], some d⟩
          (vb0 + 10 + turnOf cur.dir d +
            getManhattanDistance (nextCell cur.pos d) endP * 10) := by
        refine ⟨List.getLast?_concat _,
          unitChain_snoc cur.path cur.pos _ hcu hcl hstep1, hnorev,
          ⟨vb0 + 10 + turnOf cur.dir d, vget_vset_self _ _ _, le_of_eq hgOfe.symm⟩, ?_⟩
        exact ⟨hd, cur.pos, (penult_concat _ _).trans hcl, rfl, hval, vb0, hVb0V2, by omega⟩
      refine ⟨⟨?_, ?_, ?_, ?_, ?_, hVb0V2⟩, hstep, ?_⟩
      · intro x hx
        rcases (mem_sortedInsert _ _ _ x).mp hx with hxe | hxold
        · rw [hxe]
          exact hWFnew
        · exact EntryWF_mono endP obstacles gb S.visited _ x.1 x.2 hstep (hWF x hxold)
      · intro l₁ x l₂ hsplit
        rcases sortedInsert_split _ _ S.queue l₁ x l₂ hsplit with hxe | ⟨m₁, m₂, hm, hsub⟩
        · right; left
          rw [hxe]
          dsimp only
          rw [hgOfe]
          exact vget_vset_self _ _ _
        · have hxq : x ∈ S.queue := by
            rw [hm]; exact List.mem_append_right _ (List.mem_cons_self _ _)
          by_cases hxb : x.1.pos = cur.pos
          · exact Or.inl hxb
          right
          by_cases hxnc : x.1.pos = nextCell cur.pos d
          · obtain ⟨_, _, _, ⟨vbx, hvbx, hvbxle⟩, hdx⟩ := hWF x hxq
            have hlt : vb0 + 10 + turnOf cur.dir d < vbx :=
              hfreshlt vbx (by rw [← hxnc]; exact hvbx)
            have hnprlt : vb0 + 10 + turnOf cur.dir d +
                getManhattanDistance (nextCell cur.pos d) endP * 10 < x.2 := by
              rcases hdix : x.1.dir with _ | dx
              · have hg0 : gOf endP x.1 x.2 = 0 := by unfold gOf; rw [hdix]
                have hnn := hVN _ _ hvbx
                omega
              · have hgx : gOf endP x.1 x.2 =
                    x.2 - 10 * getManhattanDistance x.1.pos endP := by
                  unfold gOf; rw [hdix]
                rw [hxnc] at hgx
                omega
            have hahead := sortedInsert_ahead _ _ S.queue l₁ x l₂ hsplit hnprlt
            right; left
            refine ⟨_, hahead, hxnc.symm, ?_⟩
            rw [hxnc]
            dsimp only
            rw [hgOfe]
            exact vget_vset_self _ _ _
          · have hvx : vget (vset S.visited (nextCell cur.pos d)
                (vb0 + 10 + turnOf cur.dir d)) x.1.pos = vget S.visited x.1.pos :=
              vget_vset_ne _ _ _ hxnc _
            rcases hQC m₁ x m₂ hm with hxb2 | hc1 | ⟨y, hy, hypos, hyv⟩ | ⟨vb, hvb, hnb⟩
            · exact absurd hxb2 hxb
            · left; rw [hvx]; exact hc1
            · right; left; exact ⟨y, hsub y hy, hypos, by rw [hvx]; exact hyv⟩
            · right; right
              exact ⟨vb, by rw [hvx]; exact hvb, NbrBound_mono _ _ _ _ _ _ _ hstep hnb⟩
      · intro c v h
        by_cases hc : c = nextCell cur.pos d
        · rw [hc, vget_vset_self] at h
          have hve := Option.some.inj h
          omega
        · rw [vget_vset_ne _ _ _ hc] at h
          exact hVN c v h
      · intro c v h
        obtain ⟨w, hw, hwle⟩ := hmono c v h
        obtain ⟨w2, hw2, hw2le⟩ := hstep c w hw
        exact ⟨w2, hw2, le_trans hw2le hwle⟩
      · intro c h
        by_cases hc : c = nextCell cur.pos d
        · rw [hc, vget_vset_self] at h
          exact absurd h (by simp)
        · rw [vget_vset_ne _ _ _ hc] at h
          exact hdom c h
      · intro _
        exact ⟨vb0 + 10 + turnOf cur.dir d, vget_vset_self _ _ _, by omega⟩
  · rw [relaxDir_invalid endP obstacles gb cur vb0 S d hval]
    exact ⟨⟨hWF, hQC, hVN, hmono, hdom, hb0⟩, fun c v h => ⟨v, h, le_refl v⟩,
      fun h => absurd h hval⟩

/-- Folding neighbor relaxations over a sublist of the directions preserves
the mid expansion invariant, only lowers the visited map, and bounds the
visited cost of every enterable processed neighbor. -/
theorem relaxList_inv (endP : Point) (obstacles : Point → Bool) (gb : GridBounds)
    (cur : QEntry) (pr : Int) (vis : List (Point × Int)) (vb0 : Int)
    (hcur : EntryWF endP obstacles gb vis cur pr)
    (hvb0 : vget vis cur.pos = some vb0)
    (hK : vb0 = gOf endP cur pr ∨ NbrBound endP obstacles gb vis cur.pos vb0) :
    ∀ (ds : List Point), (∀ d ∈ ds, d ∈ dirs) → ∀ (S : AState),
      MidInv endP obstacles gb vis cur.pos vb0 S →
      MidInv endP obstacles gb vis cur.pos vb0
        (List.foldl (relaxDir endP obstacles gb cur vb0) S ds) ∧
      (∀ c v, vget S.visited c = some v →
        ∃ w, vget (List.foldl (relaxDir endP obstacles gb cur vb0) S ds).visited c =
          some w ∧ w ≤ v) ∧
      (∀ d ∈ ds, validCell endP obstacles gb (nextCell cur.pos d) →
        ∃ va, vget (List.foldl (relaxDir endP obstacles gb cur vb0) S ds).visited
          (nextCell cur.pos d) = some va ∧ va ≤ vb0 + 60) := by
  intro ds
  induction ds with
  | nil =>
    intro _ S hS
    exact ⟨hS, fun c v h => ⟨v, h, le_refl v⟩, fun d hd => absurd hd (List.not_mem_nil d)⟩
  | cons d ds ih =>
    intro hds S hS
    have hd : d ∈ dirs := hds d (List.mem_cons_self d ds)
    obtain ⟨hMid1, hstep1, hbound1⟩ :=
      relaxDir_inv endP obstacles gb cur pr vis vb0 hcur hvb0 hK d hd S hS
    obtain ⟨hMid2, hstep2, hbound2⟩ :=
      ih (fun e he => hds e (List.mem_cons_of_mem d he)) _ hMid1
    rw [List.foldl_cons]
    refine ⟨hMid2, ?_, ?_⟩
    · intro c v h
      obtain ⟨w, hw, hwle⟩ := hstep1 c v h
      obtain ⟨w2, hw2, hw2le⟩ := hstep2 c w hw
      exact ⟨w2, hw2, le_trans hw2le hwle⟩
    · intro e he hvale
      rcases List.mem_cons.mp he with rfl | he2
      · obtain ⟨va, hva, hvale2⟩ := hbound1 hvale
        obtain ⟨w, hw, hwle⟩ := hstep2 _ va hva
        exact ⟨w, hw, by omega⟩
      · exact hbound2 e he2 hvale

/-- Expanding the dequeued head entry preserves the search state invariant. -/
theorem expand_preserves (endP : Point) (obstacles : Point → Bool) (gb : GridBounds)
    (cur : QEntry) (pr : Int) (rest : List (QEntry × Int)) (vis : List (Point × Int))
    (hinv : QueueInv endP obstacles gb ⟨(cur, pr) :: rest, vis⟩) :
    ∃ vb0, vget vis cur.pos = some vb0 ∧
      QueueInv endP obstacles gb (expand endP obstacles gb cur vb0 ⟨rest, vis⟩) := by
  obtain ⟨hWF, hQC, hVN⟩ := hinv
  have hWFcur : EntryWF endP obstacles gb vis cur pr := hWF (cur, pr) (List.mem_cons_self _ _)
  obtain ⟨hcl, hcu, hcn, ⟨vb0, hvb0, hvble⟩, hcdir⟩ := hWFcur
  refine ⟨vb0, hvb0, ?_⟩
  have hWFcur2 : EntryWF endP obstacles gb vis cur pr :=
    hWF (cur, pr) (List.mem_cons_self _ _)
  have hK : vb0 = gOf endP cur pr ∨ NbrBound endP obstacles gb vis cur.pos vb0 := by
    rcases hQC [] (cur, pr) rest rfl with h1 | h2 | h3
    · exact Or.inl (Option.some.inj (hvb0.symm.trans h1))
    · obtain ⟨y, hy, _⟩ := h2
      exact absurd hy (List.not_mem_nil y)
    · obtain ⟨vb, hvb, hnb⟩ := h3
      have hvv : vb = vb0 := Option.some.inj (hvb.symm.trans hvb0)
      rw [hvv] at hnb
      exact Or.inr hnb
  have hMid0 : MidInv endP obstacles gb vis cur.pos vb0 ⟨rest, vis⟩ := by
    refine ⟨?_, ?_, hVN, fun c v h => ⟨v, h, le_refl v⟩, fun c h => h, hvb0⟩
    · intro x hx
      exact hWF x (List.mem_cons_of_mem _ hx)
    · intro l₁ x l₂ hsplit
      have hsp : rest = l₁ ++ x :: l₂ := hsplit
      rcases hQC ((cur, pr) :: l₁) x l₂ (by rw [hsp]; rfl) with hc1 | hc2 | hc3
      · exact Or.inr (Or.inl hc1)
      · obtain ⟨y, hy, hypos, hyv⟩ := hc2
        rcases List.mem_cons.mp hy with rfl | hy2
        · exact Or.inl hypos.symm
        · exact Or.inr (Or.inr (Or.inl ⟨y, hy2, hypos, hyv⟩))
      · exact Or.inr (Or.inr (Or.inr hc3))
  obtain ⟨hMidF, hmonoF, hboundF⟩ :=
    relaxList_inv endP obstacles gb cur pr vis vb0 hWFcur2 hvb0 hK dirs
      (fun d hd => hd) ⟨rest, vis⟩ hMid0
  obtain ⟨hWF2, hQC2, hVN2, hmono2, hdom2, hb02⟩ := hMidF
  refine ⟨hWF2, ?_, hVN2⟩
  intro l₁ x l₂ hsplit
  by_cases hxb : x.1.pos = cur.pos
  · right; right
    refine ⟨vb0, by rw [hxb]; exact hb02, ?_⟩
    rw [hxb]
    intro d hd hvald
    exact hboundF d hd hvald
  · rcases hQC2 l₁ x l₂ hsplit with hxb2 | hc1 | hc2 | hc3
    · exact absurd hxb2 hxb
    · exact Or.inl hc1
    · exact Or.inr (Or.inl hc2)
    · exact Or.inr (Or.inr hc3)

/-- The initial search state satisfies the state invariant. -/
theorem initState_inv (start endP : Point) (obstacles : Point → Bool) (gb : GridBounds) :
    QueueInv endP obstacles gb (initState start) := by
  refine ⟨?_, ?_, ?_⟩
  · intro x hx
    rcases List.mem_singleton.mp hx with rfl
    exact ⟨rfl, trivial, trivial, ⟨0, by simp [vget], le_refl 0⟩, rfl, rfl⟩
  · intro l₁ x l₂ hsplit
    have hsp : [((⟨start, [start], none⟩ : QEntry), (0 : Int))] = l₁ ++ x :: l₂ := hsplit
    cases l₁ with
    | nil =>
      simp only [List.nil_append, List.cons.injEq] at hsp
      left
      rw [← hsp.1]
      simp [vget, gOf]
    | cons z t => simp at hsp
  · intro c v h
    have hv : (if start = c then some (0 : Int) else none) = some v := h
    by_cases hc : start = c
    · rw [if_pos hc] at hv
      have := Option.some.inj hv
      omega
    · rw [if_neg hc] at hv
      simp at hv

/-- Any successful search result is the optimized form of a unit step path
with no immediate reversal. -/
theorem aStarLoop_norev (endP : Point) (obstacles : Point → Bool) (gb : GridBounds) :
    ∀ (fuel : Nat) (st : AState) (p : List Point),
      QueueInv endP obstacles gb st →
      aStarLoop endP obstacles gb fuel st = some p →
      ∃ pa, p = optimize pa ∧ UnitChain pa ∧ NoRev pa := by
  intro fuel
  induction fuel with
  | zero => intro st p _ h; simp [aStarLoop] at h
  | succ fuel ih =>
    intro st p hinv h
    obtain ⟨qu, vis⟩ := st
    cases qu with
    | nil => rw [aStarLoop_nil] at h; exact absurd h (by simp)
    | cons hd rest =>
      obtain ⟨cur, pr⟩ := hd
      rw [aStarLoop_cons] at h
      by_cases hend : cur.pos = endP
      · rw [if_pos hend] at h
        have hcur := hinv.1 (cur, pr) (List.mem_cons_self _ _)
        exact ⟨cur.path, (Option.some.inj h).symm, hcur.2.1, hcur.2.2.1⟩
      · rw [if_neg hend] at h
        obtain ⟨vb0, hvb0, hinv2⟩ := expand_preserves endP obstacles gb cur pr rest vis hinv
        rw [hvb0] at h
        simp only [Option.getD_some] at h
        exact ih _ p hinv2 h

/-- C8: every path returned by the pathfinder after its collinearity
post-processing retains the start and end cells verbatim at its two ends,
and contains no three consecutive collinear points except at triples that
involve the first or the last point of the path. -/
theorem c8_collinearity (start endP : Point) (obstacles : Point → Bool) (gb : GridBounds)
    (p : List Point) (hp : aStarRun start endP obstacles gb = some p) :
    p.head? = some start ∧ p.getLast? = some endP ∧
    ∀ (i : Nat) (a b c : Point), 1 ≤ i → i + 4 ≤ p.length →
      p[i]? = some a → p[i + 1]? = some b → p[i + 2]? = some c →
      collinearB a b c = false := by
  have hinit : ∀ x ∈ (initState start).queue, EntryInv start endP obstacles x.1 := by
    intro x hx
    rcases List.mem_singleton.mp hx with rfl
    exact ⟨rfl, rfl, by intro q hq; simp at hq⟩
  obtain ⟨e, hEI, hepos, hpe⟩ :=
    aStarLoop_success start endP obstacles gb MAX_ITER (initState start) p hinit hp
  obtain ⟨pa, hpa, hu, hn⟩ := aStarLoop_norev endP obstacles gb MAX_ITER (initState start) p
    (initState_inv start endP obstacles gb) hp
  obtain ⟨hEh, hEl, _⟩ := hEI
  refine ⟨?_, ?_, ?_⟩
  · rw [hpe]
    rcases hep : e.path with _ | ⟨q, ps⟩
    · rw [hep] at hEh
      simp at hEh
    · rw [hep] at hEh
      have hq : q = start := by simpa using hEh
      rw [hq]
      rfl
  · rw [hpe]
    rcases hep : e.path with _ | ⟨q, ps⟩
    · rw [hep] at hEl
      simp at hEl
    · rw [hep] at hEl
      rw [hepos] at hEl
      have hlast : (q :: ps).getLast? = some endP := hEl
      rw [show optimize (q :: ps) = q :: (keepMids (q :: ps) ++ [List.getLastD ps q]) from rfl]
      rw [show (q : Point) :: (keepMids (q :: ps) ++ [List.getLastD ps q]) =
        ((q :: keepMids (q :: ps)) ++ [List.getLastD ps q]) from rfl]
      rw [List.getLast?_concat]
      rw [← hlast]
      rw [List.getLast?_cons]
      rw [List.getLastD_eq_getLast?]
  · intro i a b c hi hlen h1 h2 h3
    rw [hpa] at hlen h1 h2 h3
    exact optimize_interior pa hu hn i a b c hi hlen h1 h2 h3

/-- Witness for C8: on the S corridor instance the search succeeds with a
six point path whose ends are the start and end cells, and the interior
triple at index 1 is indeed not collinear. -/
theorem c8_witness :
    aStarRun ⟨0, 0⟩ ⟨4, 3⟩ obsS ⟨0, 4, 0, 3⟩ =
      some [⟨0, 0⟩, ⟨0, 3⟩, ⟨2, 3⟩, ⟨2, 0⟩, ⟨4, 0⟩, ⟨4, 3⟩] ∧
    collinearB ⟨0, 3⟩ ⟨2, 3⟩ ⟨2, 0⟩ = false := by
  have hrun : aStarRun ⟨0, 0⟩ ⟨4, 3⟩ obsS ⟨0, 4, 0, 3⟩ =
      some [⟨0, 0⟩, ⟨0, 3⟩, ⟨2, 3⟩, ⟨2, 0⟩, ⟨4, 0⟩, ⟨4, 3⟩] := by decide
  refine ⟨hrun, ?_⟩
  exact (c8_collinearity ⟨0, 0⟩ ⟨4, 3⟩ obsS ⟨0, 4, 0, 3⟩ _ hrun).2.2 1 ⟨0, 3⟩ ⟨2, 3⟩ ⟨2, 0⟩
    (by decide) (by decide) (by decide) (by decide) (by decide)

end Schematic
